import Mathlib

/-!
# Verification of `SingleLinkedList<T>` (src/src/main.cpp)

Shallow embedding of the sentinel-based singly linked list container.

Memory is explicit: a `Heap` is an association list from addresses (`Nat`)
to `Node`s together with an allocation counter.  A `SingleLinkedList` object
is its two data members: `head_` is a sentinel node embedded in the object,
of which only the `next_node` field is ever read, so we keep `head_next`
(the C++ `head_.next_node`, `none` = `nullptr`) and `size_`.

Operations that dereference, write through, or `delete` a pointer can hit
undefined behavior (null or dangling pointer); such operations return
`Option`, with `none` marking UB.  `size_` is a `size_t`; its wrap-around
is unreachable in any execution that keeps the count equal to the number of
allocated, distinct-address nodes, so it is modelled as `Nat`.
-/

set_option autoImplicit false

namespace SLLVerify

universe u

variable {T : Type u}

/-- C++ `SingleLinkedList<Type>::Node`: one value and the link to the next
node (`none` = `nullptr`), the link being an address into the heap. -/
structure Node (T : Type u) where
  value : T
  next_node : Option Nat
deriving DecidableEq

/-- Explicit heap: allocated nodes as an association list from address to
node, plus the next fresh address. -/
structure Heap (T : Type u) where
  mem : List (Nat × Node T)
  nextA : Nat
deriving DecidableEq

/-- Read the node at address `a`; `none` when `a` is not allocated. -/
def Heap.lookup (h : Heap T) (a : Nat) : Option (Node T) :=
  (h.mem.find? (fun p => p.1 == a)).map (fun p => p.2)

/-- Overwrite the node at address `a` (no effect if `a` is unallocated). -/
def Heap.write (h : Heap T) (a : Nat) (n : Node T) : Heap T :=
  ⟨h.mem.map (fun p => if p.1 = a then (a, n) else p), h.nextA⟩

/-- C++ `delete`: deallocate address `a`. -/
def Heap.free (h : Heap T) (a : Nat) : Heap T :=
  ⟨h.mem.filter (fun p => p.1 ≠ a), h.nextA⟩

/-- C++ `new Node(...)`: allocate a fresh address holding `n`. -/
def Heap.alloc (h : Heap T) (n : Node T) : Heap T × Nat :=
  (⟨(h.nextA, n) :: h.mem, h.nextA + 1⟩, h.nextA)

/-- Heap well-formedness: every allocated address is below the counter,
so fresh allocations never collide with live nodes. -/
def Heap.WF (h : Heap T) : Prop :=
  ∀ p ∈ h.mem, p.1 < h.nextA

/-- The two data members of `SingleLinkedList<Type>`:
`head_next` is `head_.next_node` and `size_` the element count.
A default-constructed list has both zeroed (`Node` value-initializes
`next_node` to `nullptr`). -/
structure SingleLinkedList (T : Type u) where
  head_next : Option Nat := none
  size_ : Nat := 0
deriving DecidableEq

namespace SingleLinkedList

/-- `GetSize`: returns `size_`. -/
def GetSize (l : SingleLinkedList T) : Nat := l.size_

/-- `IsEmpty`: `head_.next_node == nullptr`. -/
def IsEmpty (l : SingleLinkedList T) : Bool := l.head_next.isNone

end SingleLinkedList

/-- A `BasicIterator` is a `Node*`.  It is null (`endIter`), points to the
embedded sentinel `head_` of the list under consideration (`beforeBegin`),
or points to a heap node (`node a`). -/
inductive Iter where
  | beforeBegin : Iter
  | node : Nat → Iter
  | endIter : Iter
deriving DecidableEq

/-- Wrap a `Node*` read out of a `next_node` field as an iterator, as in
`Iterator{ptr}`: a null pointer is the end iterator. -/
def iterOfPtr : Option Nat → Iter
  | none => Iter.endIter
  | some a => Iter.node a

/-- `before_begin()` / `cbefore_begin()`: iterator at the sentinel. -/
def before_begin (_l : SingleLinkedList T) : Iter := Iter.beforeBegin

/-- `begin()` / `cbegin()`: `Iterator{head_.next_node}`. -/
def beginIter (l : SingleLinkedList T) : Iter := iterOfPtr l.head_next

/-- `end()` / `cend()`: `Iterator{nullptr}`. -/
def endOfList (_l : SingleLinkedList T) : Iter := Iter.endIter

/-- Read `pos.node_->next_node`.  For `beforeBegin` this reads the
sentinel's link, i.e. `l.head_next`; for a heap node it dereferences the
heap; dereferencing a null or dangling pointer is UB (`none`). -/
def readNext (h : Heap T) (l : SingleLinkedList T) : Iter → Option (Option Nat)
  | Iter.beforeBegin => some l.head_next
  | Iter.node a => (h.lookup a).map (fun n => n.next_node)
  | Iter.endIter => none

/-- Write `pos.node_->next_node = q`.  For `beforeBegin` this updates the
sentinel's link inside the list object; writing through a null or dangling
pointer is UB (`none`). -/
def writeNext (h : Heap T) (l : SingleLinkedList T) (pos : Iter) (q : Option Nat) :
    Option (Heap T × SingleLinkedList T) :=
  match pos with
  | Iter.beforeBegin => some (h, { l with head_next := q })
  | Iter.node a =>
    (h.lookup a).map (fun n => (h.write a { n with next_node := q }, l))
  | Iter.endIter => none

/-- `PushFront(value)`: `head_.next_node = new Node(value, head_.next_node); ++size_;`. -/
def PushFront (h : Heap T) (l : SingleLinkedList T) (v : T) :
    Heap T × SingleLinkedList T :=
  let al := h.alloc ⟨v, l.head_next⟩
  (al.1, ⟨some al.2, l.size_ + 1⟩)

/-- `PopFront()`: when non-empty, unlink and `delete` the first node and
decrement `size_`; no-op on an empty list. -/
def PopFront (h : Heap T) (l : SingleLinkedList T) :
    Option (Heap T × SingleLinkedList T) :=
  if l.IsEmpty then some (h, l)
  else
    match l.head_next with
    | none => none
    | some a =>
      match h.lookup a with
      | none => none
      | some n => some (h.free a, ⟨n.next_node, l.size_ - 1⟩)

/-- `InsertAfter(pos, value)`:
`pos.node_->next_node = new Node(value, pos.node_->next_node); ++size_;
return Iterator{pos.node_->next_node};`. -/
def InsertAfter (h : Heap T) (l : SingleLinkedList T) (pos : Iter) (v : T) :
    Option (Heap T × SingleLinkedList T × Iter) :=
  match readNext h l pos with
  | none => none
  | some old =>
    let al := h.alloc ⟨v, old⟩
    match writeNext al.1 l pos (some al.2) with
    | none => none
    | some hl =>
      let l2 : SingleLinkedList T := ⟨hl.2.head_next, hl.2.size_ + 1⟩
      match readNext hl.1 l2 pos with
      | none => none
      | some ret => some (hl.1, l2, iterOfPtr ret)

/-- `EraseAfter(pos)`: when the list is non-empty, unlink and `delete`
`pos.node_->next_node` and decrement `size_`; in all cases
`return Iterator{pos.node_->next_node}`. -/
def EraseAfter (h : Heap T) (l : SingleLinkedList T) (pos : Iter) :
    Option (Heap T × SingleLinkedList T × Iter) :=
  if l.IsEmpty then
    match readNext h l pos with
    | none => none
    | some q => some (h, l, iterOfPtr q)
  else
    match readNext h l pos with
    | none => none
    | some none => none
    | some (some a) =>
      match h.lookup a with
      | none => none
      | some n =>
        match writeNext h l pos n.next_node with
        | none => none
        | some hl =>
          let h2 := (hl.1).free a
          let l2 : SingleLinkedList T := ⟨hl.2.head_next, hl.2.size_ - 1⟩
          match readNext h2 l2 pos with
          | none => none
          | some q => some (h2, l2, iterOfPtr q)

/-- The loop of `Clear()`: walk from `p`, deleting each node.  `delete`
of an unallocated address is UB (`none`).  Terminates because each
`delete` of an allocated entry shrinks the heap. -/
def clearLoop (h : Heap T) (p : Option Nat) : Option (Heap T) :=
  match p with
  | none => some h
  | some a =>
    match hl : h.lookup a with
    | none => none
    | some n => clearLoop (h.free a) n.next_node
termination_by h.mem.length
decreasing_by
  have hmem : ∃ p ∈ h.mem, p.1 = a := by
    unfold Heap.lookup at hl
    rcases hfind : h.mem.find? (fun p => p.1 == a) with _ | p
    · rw [hfind] at hl; simp at hl
    · exact ⟨p, List.mem_of_find?_eq_some hfind, by
        have := List.find?_some hfind
        simpa using this⟩
  rcases hmem with ⟨p, hp, hpa⟩
  apply List.length_filter_lt_length_iff_exists.mpr
  exact ⟨p, hp, by simp [hpa]⟩

/-- `Clear()`: delete every node from the head on, then zero the members. -/
def Clear (h : Heap T) (l : SingleLinkedList T) :
    Option (Heap T × SingleLinkedList T) :=
  (clearLoop h l.head_next).map (fun h2 => (h2, ⟨none, 0⟩))

/-- Member `swap(other)`: exchanges `head_.next_node` and `size_` between
the two distinct objects; returns `(new this, new other)`. -/
def swapSLL (l other : SingleLinkedList T) :
    SingleLinkedList T × SingleLinkedList T :=
  (⟨other.head_next, other.size_⟩, ⟨l.head_next, l.size_⟩)

/-- Free `swap(lhs, rhs)`: `lhs.swap(rhs)`. -/
def swapFree (lhs rhs : SingleLinkedList T) :
    SingleLinkedList T × SingleLinkedList T :=
  swapSLL lhs rhs

/-- `std::swap(x, y)` when `x` and `y` alias the same object:
`tmp = x; x = y; y = tmp` with both references bound to one cell. -/
def stdSwapAliased {α : Type u} (x : α) : α :=
  let tmp := x
  let x1 := x
  let x2 := tmp
  let _ := x1
  x2

/-- Member `swap` called with `other` aliasing `*this`
(`l.swap(l)` or free `swap(l, l)`): the two field-level `std::swap`s run
with aliased operands. -/
def swapSelf (l : SingleLinkedList T) : SingleLinkedList T :=
  ⟨stdSwapAliased l.head_next, stdSwapAliased l.size_⟩

/-- The iteration `for (auto it = other.begin(); it != other.end(); ++it)
tmp_v.push_back(*it);` of the copy constructor: collect the values along
the chain starting at `p`.  The C++ loop runs until the chain reaches
`nullptr`; a dangling link is UB and a cyclic chain never terminates, both
modelled as `none` once the fuel — always instantiated with the heap size,
which bounds every terminating traversal — runs out. -/
def collectVals (h : Heap T) : Nat → Option Nat → Option (List T)
  | _, none => some []
  | 0, some _ => none
  | fuel + 1, some a =>
    match h.lookup a with
    | none => none
    | some n => (collectVals h fuel n.next_node).map (fun vs => n.value :: vs)

/-- Repeated `PushFront`, front to back over `vs`. -/
def pushAll (h : Heap T) (l : SingleLinkedList T) (vs : List T) :
    Heap T × SingleLinkedList T :=
  vs.foldl (fun p v => PushFront p.1 p.2 v) (h, l)

/-- Copy constructor `SingleLinkedList(const SingleLinkedList& other)`:
the fresh object has `head_ == nullptr` and `size_ == 0`, so the guard
holds; collect `other`'s values into `tmp_v`, push them back-to-front onto
a temporary, swap with it, and run the temporary's destructor (a `Clear`
of this object's original, empty chain — a no-op). -/
def copyCtor (h : Heap T) (other : SingleLinkedList T) :
    Option (Heap T × SingleLinkedList T) :=
  match collectVals h h.mem.length other.head_next with
  | none => none
  | some tmp_v =>
    let ht := pushAll h ⟨none, 0⟩ tmp_v.reverse
    let sw := swapSLL ⟨none, 0⟩ ht.2
    match Clear ht.1 sw.2 with
    | none => none
    | some h2 => some (h2.1, sw.1)

/-- Copy assignment `operator=(const SingleLinkedList& rhs)`:
`if (this != &rhs) { auto copy_value(rhs); swap(copy_value); }` — the
temporary's destructor then clears the nodes this object held before.
`sameObj` tells whether `this == &rhs`. -/
def assignOp (h : Heap T) (lhs rhs : SingleLinkedList T) (sameObj : Bool) :
    Option (Heap T × SingleLinkedList T) :=
  if sameObj then some (h, lhs)
  else
    match copyCtor h rhs with
    | none => none
    | some hc =>
      let sw := swapSLL lhs hc.2
      match Clear hc.1 sw.2 with
      | none => none
      | some h2 => some (h2.1, sw.1)

section Comparisons

variable [DecidableEq T]

/-- `std::equal(lhs.begin(), lhs.end(), rhs.begin())` over the two chains:
walk the first range, dereferencing the second in lockstep (dereferencing
`rhs` past its terminal null is UB).  Fuel as in `collectVals`. -/
def eqRange (h : Heap T) : Nat → Option Nat → Option Nat → Option Bool
  | _, none, _ => some true
  | 0, some _, _ => none
  | _ + 1, some _, none => none
  | fuel + 1, some a, some b =>
    match h.lookup a, h.lookup b with
    | some n, some m =>
      if n.value = m.value then eqRange h fuel n.next_node m.next_node
      else some false
    | _, _ => none

/-- `operator==`: sizes first, then `std::equal` over the elements. -/
def listEq (h : Heap T) (lhs rhs : SingleLinkedList T) : Option Bool :=
  if lhs.GetSize ≠ rhs.GetSize then some false
  else eqRange h h.mem.length lhs.head_next rhs.head_next

/-- `operator!=`: `!(lhs == rhs)`. -/
def listNe (h : Heap T) (lhs rhs : SingleLinkedList T) : Option Bool :=
  (listEq h lhs rhs).map (fun b => !b)

end Comparisons

section Ordering

variable [LT T] [DecidableRel (fun a b : T => a < b)]

/-- `std::lexicographical_compare(lhs.begin(), lhs.end(), rhs.begin(),
rhs.end())` over the two chains.  Fuel as in `collectVals`. -/
def lexComp (h : Heap T) : Nat → Option Nat → Option Nat → Option Bool
  | _, none, none => some false
  | _, none, some _ => some true
  | _, some _, none => some false
  | 0, some _, some _ => none
  | fuel + 1, some a, some b =>
    match h.lookup a, h.lookup b with
    | some n, some m =>
      if n.value < m.value then some true
      else if m.value < n.value then some false
      else lexComp h fuel n.next_node m.next_node
    | _, _ => none

/-- `operator<`: lexicographical comparison. -/
def listLt (h : Heap T) (lhs rhs : SingleLinkedList T) : Option Bool :=
  lexComp h h.mem.length lhs.head_next rhs.head_next

/-- `operator<=`: `!(rhs < lhs)`. -/
def listLe (h : Heap T) (lhs rhs : SingleLinkedList T) : Option Bool :=
  (listLt h rhs lhs).map (fun b => !b)

/-- `operator>`: `rhs < lhs`. -/
def listGt (h : Heap T) (lhs rhs : SingleLinkedList T) : Option Bool :=
  listLt h rhs lhs

/-- `operator>=`: `!(lhs < rhs)`. -/
def listGe (h : Heap T) (lhs rhs : SingleLinkedList T) : Option Bool :=
  (listLt h lhs rhs).map (fun b => !b)

/-- Lexicographical order on value sequences, the specification-level
order that the claims say the operators follow: shorter prefix is less;
at the first position where the heads differ, `<` on elements decides. -/
def lexLt : List T → List T → Bool
  | [], [] => false
  | [], _ :: _ => true
  | _ :: _, [] => false
  | a :: as, b :: bs =>
    if a < b then true
    else if b < a then false
    else lexLt as bs

end Ordering

/-! ## Reachability: chains of nodes through the heap -/

/-- `Seg h p q as`: starting from pointer `p`, following `next_node`
links visits exactly the addresses `as` (each allocated in `h`) and ends
with the pointer `q`. -/
inductive Seg (h : Heap T) : Option Nat → Option Nat → List Nat → Prop where
  | refl (p : Option Nat) : Seg h p p []
  | cons {a : Nat} {n : Node T} {q : Option Nat} {as : List Nat}
      (hl : h.lookup a = some n) (hs : Seg h n.next_node q as) :
      Seg h (some a) q (a :: as)

/-- `Chain h p as`: from `p` the chain of addresses `as` reaches the
terminal null pointer. -/
def Chain (h : Heap T) (p : Option Nat) (as : List Nat) : Prop :=
  Seg h p none as

/-- The values stored at a list of addresses (skipping unallocated ones;
along a `Seg` every address is allocated). -/
def valsOf (h : Heap T) (as : List Nat) : List T :=
  as.filterMap (fun a => (h.lookup a).map (fun n => n.value))

/-- The list `l` in heap `h` represents the value sequence `vs`:
its chain reaches null, its recorded size is the chain length, and the
values along the chain are `vs`. -/
def Models (h : Heap T) (l : SingleLinkedList T) (vs : List T) : Prop :=
  ∃ as, Chain h l.head_next as ∧ l.size_ = as.length ∧ vs = valsOf h as

/-- The structural invariant of claim C1: the chain from the sentinel
reaches the terminal null and the recorded count equals its length. -/
def Inv (h : Heap T) (l : SingleLinkedList T) : Prop :=
  ∃ as, Chain h l.head_next as ∧ l.size_ = as.length

/-- Executable chain computation (addresses), for concrete witnesses. -/
def chainF (h : Heap T) : Nat → Option Nat → Option (List Nat)
  | _, none => some []
  | 0, some _ => none
  | fuel + 1, some a =>
    match h.lookup a with
    | none => none
    | some n => (chainF h fuel n.next_node).map (fun as => a :: as)

/-- `pos` is a valid position of list `l` in heap `h`: it references the
sentinel (`before_begin`) or a real node of `l`'s chain; `pre` lists the
chain addresses up to and including `pos`'s node and `suf` the remainder
of the chain after `pos`. -/
def PosSplit (h : Heap T) (l : SingleLinkedList T) (pos : Iter)
    (pre suf : List Nat) : Prop :=
  Chain h l.head_next (pre ++ suf) ∧
  Seg h l.head_next suf.head? pre ∧
  ((pos = Iter.beforeBegin ∧ pre = []) ∨
    (∃ p pre0, pos = Iter.node p ∧ pre = pre0 ++ [p]))

/-! ## Heap lemmas -/

theorem find?_filter_of_imp {α : Type u} (l : List α) (q r : α → Bool)
    (hqr : ∀ x, q x = true → r x = true) :
    (l.filter r).find? q = l.find? q := by
  induction l with
  | nil => rfl
  | cons x t ih =>
    by_cases hr : r x = true
    · rw [List.filter_cons_of_pos hr]
      by_cases hq : q x = true
      · rw [List.find?_cons_of_pos _ hq, List.find?_cons_of_pos _ hq]
      · rw [List.find?_cons_of_neg _ (by simpa using hq),
          List.find?_cons_of_neg _ (by simpa using hq), ih]
    · have hq : ¬q x = true := fun hx => hr (hqr x hx)
      rw [List.filter_cons_of_neg (by simpa using hr),
        List.find?_cons_of_neg _ (by simpa using hq), ih]

theorem lookup_alloc_self (h : Heap T) (n : Node T) :
    (h.alloc n).1.lookup (h.alloc n).2 = some n := by
  simp [Heap.alloc, Heap.lookup, List.find?_cons_of_pos]

theorem lookup_alloc_ne (h : Heap T) (n : Node T) (a : Nat) (hne : a ≠ h.nextA) :
    (h.alloc n).1.lookup a = h.lookup a := by
  simp only [Heap.alloc, Heap.lookup]
  rw [List.find?_cons_of_neg]
  simpa using fun hx => hne hx.symm

theorem lookup_write_ne (h : Heap T) (a : Nat) (n : Node T) (b : Nat)
    (hne : b ≠ a) : (h.write a n).lookup b = h.lookup b := by
  simp only [Heap.write, Heap.lookup]
  congr 1
  induction h.mem with
  | nil => rfl
  | cons p t ih =>
    by_cases hp : p.1 = a
    · rw [List.map_cons, if_pos hp]
      rw [List.find?_cons_of_neg _ (by simpa using fun hx => hne hx.symm),
        List.find?_cons_of_neg _ (by simp [hp]; exact fun hx => hne hx.symm), ih]
    · rw [List.map_cons, if_neg hp]
      by_cases hq : p.1 = b
      · rw [List.find?_cons_of_pos _ (by simpa using hq),
          List.find?_cons_of_pos _ (by simpa using hq)]
      · rw [List.find?_cons_of_neg _ (by simpa using hq),
          List.find?_cons_of_neg _ (by simpa using hq), ih]

theorem find?_map_write (t : List (Nat × Node T)) (a : Nat) (n : Node T)
    (hex : ∃ p ∈ t, p.1 = a) :
    (t.map (fun p => if p.1 = a then (a, n) else p)).find? (fun p => p.1 == a)
      = some (a, n) := by
  induction t with
  | nil => simp at hex
  | cons p t ih =>
    by_cases hp : p.1 = a
    · rw [List.map_cons, if_pos hp, List.find?_cons_of_pos _ (by simp)]
    · rw [List.map_cons, if_neg hp, List.find?_cons_of_neg _ (by simpa using hp)]
      apply ih
      rcases hex with ⟨q, hq, hqa⟩
      rcases List.mem_cons.mp hq with hq | hq
      · exact absurd (hq ▸ hqa) hp
      · exact ⟨q, hq, hqa⟩

theorem lookup_write_self (h : Heap T) (a : Nat) (n m : Node T)
    (hl : h.lookup a = some m) : (h.write a n).lookup a = some n := by
  have hex : ∃ p ∈ h.mem, p.1 = a := by
    simp only [Heap.lookup, Option.map_eq_some'] at hl
    rcases hl with ⟨p, hp, _⟩
    exact ⟨p, List.mem_of_find?_eq_some hp, by simpa using List.find?_some hp⟩
  simp only [Heap.write, Heap.lookup]
  rw [find?_map_write h.mem a n hex]
  rfl

theorem lookup_free_self (h : Heap T) (a : Nat) :
    (h.free a).lookup a = none := by
  simp only [Heap.free, Heap.lookup, Option.map_eq_none']
  rw [List.find?_eq_none]
  intro p hp
  have hpa : ¬(p.1 = a) := by simpa using List.of_mem_filter hp
  simpa using hpa

theorem lookup_free_ne (h : Heap T) (a b : Nat) (hne : b ≠ a) :
    (h.free a).lookup b = h.lookup b := by
  simp only [Heap.free, Heap.lookup]
  congr 1
  apply find?_filter_of_imp
  intro x hx
  have hxb : x.1 = b := by simpa using hx
  simpa using hxb ▸ hne

theorem lookup_mem_keys (h : Heap T) (a : Nat) (n : Node T)
    (hl : h.lookup a = some n) : a ∈ h.mem.map Prod.fst := by
  simp only [Heap.lookup, Option.map_eq_some'] at hl
  rcases hl with ⟨p, hp, _⟩
  have hmem := List.mem_of_find?_eq_some hp
  have hpa : p.1 = a := by simpa using List.find?_some hp
  exact hpa ▸ List.mem_map_of_mem Prod.fst hmem

theorem WF.lookup_lt (h : Heap T) (hwf : h.WF) (a : Nat) (n : Node T)
    (hl : h.lookup a = some n) : a < h.nextA := by
  simp only [Heap.lookup, Option.map_eq_some'] at hl
  rcases hl with ⟨p, hp, _⟩
  have hmem := List.mem_of_find?_eq_some hp
  have hpa : p.1 = a := by simpa using List.find?_some hp
  exact hpa ▸ hwf p hmem

theorem WF.alloc (h : Heap T) (hwf : h.WF) (n : Node T) :
    (h.alloc n).1.WF := by
  intro p hp
  rcases List.mem_cons.mp hp with hp | hp
  · simp [Heap.alloc, hp]
  · exact Nat.lt_succ_of_lt (hwf p hp)

theorem WF.write (h : Heap T) (hwf : h.WF) (a : Nat) (n : Node T)
    (m : Node T) (hl : h.lookup a = some m) : (h.write a n).WF := by
  intro p hp
  simp only [Heap.write, List.mem_map] at hp
  rcases hp with ⟨q, hq, hfq⟩
  by_cases hqa : q.1 = a
  · have := WF.lookup_lt h hwf a m hl
    rw [if_pos hqa] at hfq
    simpa [← hfq] using this
  · rw [if_neg hqa] at hfq
    exact hfq ▸ hwf q hq

theorem WF.free (h : Heap T) (hwf : h.WF) (a : Nat) : (h.free a).WF := by
  intro p hp
  exact hwf p (List.mem_of_mem_filter hp)

theorem nextA_write (h : Heap T) (a : Nat) (n : Node T) :
    (h.write a n).nextA = h.nextA := rfl

theorem nextA_free (h : Heap T) (a : Nat) : (h.free a).nextA = h.nextA := rfl

theorem nextA_alloc (h : Heap T) (n : Node T) :
    (h.alloc n).1.nextA = h.nextA + 1 := rfl

theorem alloc_addr (h : Heap T) (n : Node T) : (h.alloc n).2 = h.nextA := rfl

/-! ## Chain lemmas -/

theorem seg_append {h : Heap T} {p q r : Option Nat} {l1 l2 : List Nat}
    (h1 : Seg h p q l1) (h2 : Seg h q r l2) : Seg h p r (l1 ++ l2) := by
  induction h1 with
  | refl p => exact h2
  | cons hl _ ih => exact Seg.cons hl (ih h2)

theorem seg_frame {h h2 : Heap T} {p q : Option Nat} {as : List Nat}
    (hs : Seg h p q as) (hagree : ∀ a ∈ as, h2.lookup a = h.lookup a) :
    Seg h2 p q as := by
  induction hs with
  | refl p => exact Seg.refl p
  | cons hl hs ih =>
    refine Seg.cons ?_ (ih fun a ha => hagree a (List.mem_cons_of_mem _ ha))
    rw [hagree _ (List.mem_cons_self _ _)]
    exact hl

theorem seg_lookup {h : Heap T} {p q : Option Nat} {as : List Nat}
    (hs : Seg h p q as) {a : Nat} (ha : a ∈ as) :
    ∃ n, h.lookup a = some n := by
  induction hs with
  | refl p => simp at ha
  | cons hl _ ih =>
    rcases List.mem_cons.mp ha with rfl | hmem
    · exact ⟨_, hl⟩
    · exact ih hmem

theorem seg_unique_aux {h : Heap T} {p q : Option Nat} {as : List Nat}
    (ha : Seg h p q as) :
    q = none → ∀ {bs : List Nat}, Seg h p none bs → as = bs := by
  induction ha with
  | refl p =>
    rintro rfl bs hb
    cases hb with
    | refl => rfl
  | cons hl hs ih =>
    rintro rfl bs hb
    cases hb with
    | cons hl2 hs2 =>
      have hn : _ = _ := hl.symm.trans hl2
      injection hn with hn
      subst hn
      rw [ih rfl hs2]

theorem chain_unique {h : Heap T} {p : Option Nat} {as bs : List Nat}
    (ha : Chain h p as) (hb : Chain h p bs) : as = bs :=
  seg_unique_aux ha rfl hb

theorem seg_mem_suffix {h : Heap T} {p q : Option Nat} {as : List Nat} {a : Nat}
    (hs : Seg h p q as) (ha : a ∈ as) :
    ∃ bs, Seg h (some a) q (a :: bs) ∧ bs.length < as.length := by
  induction hs with
  | refl p => simp at ha
  | cons hl hs ih =>
    rcases List.mem_cons.mp ha with rfl | hmem
    · exact ⟨_, Seg.cons hl hs, by simp⟩
    · rcases ih hmem with ⟨bs, hseg, hlen⟩
      exact ⟨bs, hseg, Nat.lt_succ_of_lt hlen⟩

/-- A chain reaching the terminal null never repeats an address: the
acyclicity part of the data-structure invariant. -/
theorem seg_nodup_aux {h : Heap T} {p q : Option Nat} {as : List Nat}
    (hc : Seg h p q as) : q = none → as.Nodup := by
  induction hc with
  | refl p => intro; exact List.nodup_nil
  | cons hl hs ih =>
    rintro rfl
    refine List.nodup_cons.mpr ⟨?_, ih rfl⟩
    intro hmem
    rcases seg_mem_suffix hs hmem with ⟨bs, hseg, hlen⟩
    have heq := chain_unique (Seg.cons hl hs) hseg
    injection heq with _ heq
    rw [heq] at hlen
    exact absurd hlen (by simp)

/-- A chain reaching the terminal null never repeats an address: the
acyclicity part of the data-structure invariant. -/
theorem chain_nodup {h : Heap T} {p : Option Nat} {as : List Nat}
    (hc : Chain h p as) : as.Nodup :=
  seg_nodup_aux hc rfl

theorem seg_prefix_split {h : Heap T} {p q : Option Nat} {l1 as : List Nat}
    (hs : Seg h p q l1) (hc : Chain h p as) :
    ∃ l2, as = l1 ++ l2 ∧ Chain h q l2 := by
  unfold Chain at hc ⊢
  induction hs generalizing as with
  | refl p => exact ⟨as, rfl, hc⟩
  | cons hl hs ih =>
    cases hc with
    | cons hl2 hs2 =>
      have hn : _ = _ := hl.symm.trans hl2
      injection hn with hn
      subst hn
      rcases ih hs2 with ⟨l2, rfl, hc2⟩
      exact ⟨l2, rfl, hc2⟩

theorem chain_length_le {h : Heap T} {p : Option Nat} {as : List Nat}
    (hc : Chain h p as) : as.length ≤ h.mem.length := by
  have hnd : as.Nodup := chain_nodup hc
  have hsub : as ⊆ h.mem.map Prod.fst := by
    intro a ha
    rcases seg_lookup hc ha with ⟨n, hn⟩
    exact lookup_mem_keys h a n hn
  have hle := List.Subperm.length_le (List.subperm_of_subset hnd hsub)
  simpa using hle

theorem seg_mem_lt {h : Heap T} (hwf : h.WF) {p q : Option Nat} {as : List Nat}
    (hs : Seg h p q as) {a : Nat} (ha : a ∈ as) : a < h.nextA := by
  rcases seg_lookup hs ha with ⟨n, hn⟩
  exact WF.lookup_lt h hwf a n hn

theorem valsOf_cons {h : Heap T} {a : Nat} {n : Node T} {as : List Nat}
    (hl : h.lookup a = some n) :
    valsOf h (a :: as) = n.value :: valsOf h as := by
  simp [valsOf, hl]

theorem valsOf_append (h : Heap T) (as bs : List Nat) :
    valsOf h (as ++ bs) = valsOf h as ++ valsOf h bs := by
  simp [valsOf]

theorem valsOf_frame {h h2 : Heap T} {as : List Nat}
    (hagree : ∀ a ∈ as, h2.lookup a = h.lookup a) :
    valsOf h2 as = valsOf h as := by
  unfold valsOf
  induction as with
  | nil => rfl
  | cons a as ih =>
    simp only [List.filterMap_cons]
    rw [hagree a (List.mem_cons_self _ _),
      ih fun b hb => hagree b (List.mem_cons_of_mem _ hb)]

theorem seg_length_eq_valsOf {h : Heap T} {p q : Option Nat} {as : List Nat}
    (hs : Seg h p q as) : (valsOf h as).length = as.length := by
  induction hs with
  | refl p => rfl
  | cons hl _ ih => rw [valsOf_cons hl, List.length_cons, List.length_cons, ih]

theorem collectVals_aux {h : Heap T} {p q : Option Nat} {as : List Nat}
    (hc : Seg h p q as) : q = none →
    ∀ fuel, as.length ≤ fuel → collectVals h fuel p = some (valsOf h as) := by
  induction hc with
  | refl p => rintro rfl fuel _; cases fuel <;> rfl
  | cons hl hs ih =>
    rintro rfl fuel hfuel
    match fuel, hfuel with
    | fuel + 1, hfuel =>
      rw [collectVals, hl]
      simp only [ih rfl fuel (Nat.lt_succ_iff.mp (Nat.lt_of_lt_of_le
        (by simp) hfuel)), Option.map_some', valsOf_cons hl]

theorem collectVals_of_chain {h : Heap T} {p : Option Nat} {as : List Nat}
    (hc : Chain h p as) :
    ∀ fuel, as.length ≤ fuel → collectVals h fuel p = some (valsOf h as) :=
  collectVals_aux hc rfl

theorem chainF_sound {h : Heap T} :
    ∀ (fuel : Nat) (p : Option Nat) (as : List Nat),
      chainF h fuel p = some as → Chain h p as := by
  intro fuel
  induction fuel with
  | zero =>
    intro p as hcf
    cases p with
    | none => cases hcf; exact Seg.refl none
    | some a => simp [chainF] at hcf
  | succ fuel ih =>
    intro p as hcf
    cases p with
    | none => cases hcf; exact Seg.refl none
    | some a =>
      rw [chainF] at hcf
      split at hcf
      · cases hcf
      · rename_i n hlook
        rcases Option.map_eq_some'.mp hcf with ⟨bs, htail, rfl⟩
        exact Seg.cons hlook (ih _ _ htail)

theorem chain_head_ptr {h : Heap T} {p : Option Nat} {as : List Nat}
    (hc : Chain h p as) : p = as.head? := by
  unfold Chain at hc
  cases hc with
  | refl => rfl
  | cons hl hs => rfl

theorem seg_nil_inv {h : Heap T} {p q : Option Nat} (hs : Seg h p q []) :
    p = q := by
  cases hs
  rfl

theorem seg_snoc_inv {h : Heap T} :
    ∀ {pre0 : List Nat} {p q : Option Nat} {b : Nat},
      Seg h p q (pre0 ++ [b]) →
      ∃ n, Seg h p (some b) pre0 ∧ h.lookup b = some n ∧ n.next_node = q := by
  intro pre0
  induction pre0 with
  | nil =>
    intro p q b hs
    rw [List.nil_append] at hs
    cases hs with
    | cons hl hs2 =>
      have hpq := seg_nil_inv hs2
      exact ⟨_, Seg.refl _, hl, hpq⟩
  | cons x xs ih =>
    intro p q b hs
    rw [List.cons_append] at hs
    cases hs with
    | cons hl hs2 =>
      rcases ih hs2 with ⟨n, hseg, hlb, hnext⟩
      exact ⟨n, Seg.cons hl hseg, hlb, hnext⟩

theorem posSplit_chain_suf {h : Heap T} {l : SingleLinkedList T} {pos : Iter}
    {pre suf : List Nat} (hps : PosSplit h l pos pre suf) :
    Chain h suf.head? suf := by
  rcases hps with ⟨hchain, hseg, _⟩
  rcases seg_prefix_split hseg hchain with ⟨l2, heq, hc2⟩
  rw [← List.append_cancel_left heq] at hc2
  exact hc2

theorem models_inv {h : Heap T} {l : SingleLinkedList T} {vs : List T}
    (hm : Models h l vs) : Inv h l := by
  rcases hm with ⟨as, hc, hsz, _⟩
  exact ⟨as, hc, hsz⟩

theorem inv_models {h : Heap T} {l : SingleLinkedList T}
    (hi : Inv h l) : ∃ vs, Models h l vs := by
  rcases hi with ⟨as, hc, hsz⟩
  exact ⟨valsOf h as, as, hc, hsz, rfl⟩

theorem models_length {h : Heap T} {l : SingleLinkedList T} {vs : List T}
    (hm : Models h l vs) : l.size_ = vs.length := by
  rcases hm with ⟨as, hc, hsz, hv⟩
  rw [hv, seg_length_eq_valsOf hc, hsz]

/-- Heap agreement below an address bound transfers `Models` (used after
operations that only allocate fresh nodes). -/
theorem models_frame_lt {h h2 : Heap T} {l : SingleLinkedList T} {vs : List T}
    (hwf : h.WF) (hm : Models h l vs)
    (hagree : ∀ a, a < h.nextA → h2.lookup a = h.lookup a) :
    Models h2 l vs := by
  rcases hm with ⟨as, hc, hsz, hv⟩
  have hmem : ∀ a ∈ as, h2.lookup a = h.lookup a := fun a ha =>
    hagree a (seg_mem_lt hwf hc ha)
  exact ⟨as, seg_frame hc hmem, hsz, hv.trans (valsOf_frame hmem).symm⟩

/-! ## Operation specifications -/

theorem pushFront_lookup (h : Heap T) (l : SingleLinkedList T) (v : T)
    (a : Nat) (ha : a < h.nextA) :
    (PushFront h l v).1.lookup a = h.lookup a :=
  lookup_alloc_ne h _ a (Nat.ne_of_lt ha)

theorem pushFront_spec {h : Heap T} {l : SingleLinkedList T} {vs : List T}
    (hwf : h.WF) (hm : Models h l vs) (v : T) :
    (PushFront h l v).1.WF ∧
    Models (PushFront h l v).1 (PushFront h l v).2 (v :: vs) ∧
    (∀ a, a < h.nextA → (PushFront h l v).1.lookup a = h.lookup a) ∧
    h.nextA < (PushFront h l v).1.nextA := by
  rcases hm with ⟨as, hc, hsz, hv⟩
  have hagree : ∀ a ∈ as, (PushFront h l v).1.lookup a = h.lookup a :=
    fun a ha => pushFront_lookup h l v a (seg_mem_lt hwf hc ha)
  have hfresh : (PushFront h l v).1.lookup h.nextA = some ⟨v, l.head_next⟩ :=
    lookup_alloc_self h _
  refine ⟨WF.alloc h hwf _, ⟨h.nextA :: as, ?_, ?_, ?_⟩, ?_, ?_⟩
  · exact Seg.cons hfresh (seg_frame hc hagree)
  · simpa [PushFront] using hsz
  · rw [valsOf_cons hfresh, valsOf_frame hagree, hv]
  · exact fun a ha => pushFront_lookup h l v a ha
  · exact Nat.lt_succ_self _

theorem pushAll_spec {T : Type u} :
    ∀ (vs : List T) {h : Heap T} {l : SingleLinkedList T} {ws : List T},
      h.WF → Models h l ws →
      (pushAll h l vs).1.WF ∧
      Models (pushAll h l vs).1 (pushAll h l vs).2 (vs.reverse ++ ws) ∧
      (∀ a, a < h.nextA → (pushAll h l vs).1.lookup a = h.lookup a) ∧
      h.nextA ≤ (pushAll h l vs).1.nextA := by
  intro vs
  induction vs with
  | nil =>
    intro h l ws hwf hm
    exact ⟨hwf, by simpa using hm, fun a _ => rfl, Nat.le_refl _⟩
  | cons v vs ih =>
    intro h l ws hwf hm
    have hstep := pushFront_spec hwf hm v
    have hfold : pushAll h l (v :: vs)
        = pushAll (PushFront h l v).1 (PushFront h l v).2 vs := rfl
    rcases ih hstep.1 hstep.2.1 with ⟨hwf2, hm2, hagree2, hle2⟩
    refine ⟨hfold ▸ hwf2, ?_, ?_, ?_⟩
    · rw [hfold]
      simpa using hm2
    · intro a ha
      rw [hfold, hagree2 a (Nat.lt_of_lt_of_le ha (Nat.le_of_lt hstep.2.2.2)),
        hstep.2.2.1 a ha]
    · rw [hfold]
      exact Nat.le_trans (Nat.le_of_lt hstep.2.2.2) hle2

/-- `valsOf` only depends on the values of the looked-up nodes. -/
theorem valsOf_congr {h h2 : Heap T} {as : List Nat}
    (hv : ∀ a ∈ as, (h2.lookup a).map (fun n => n.value)
      = (h.lookup a).map (fun n => n.value)) :
    valsOf h2 as = valsOf h as := by
  unfold valsOf
  induction as with
  | nil => rfl
  | cons a as ih =>
    simp only [List.filterMap_cons]
    rw [hv a (List.mem_cons_self _ _),
      ih fun b hb => hv b (List.mem_cons_of_mem _ hb)]

theorem clearLoop_none (h : Heap T) : clearLoop h none = some h := by
  rw [clearLoop]

theorem clearLoop_some (h : Heap T) (a : Nat) (n : Node T)
    (hl : h.lookup a = some n) :
    clearLoop h (some a) = clearLoop (h.free a) n.next_node := by
  rw [clearLoop]
  split
  · rename_i heq
    rw [hl] at heq
    cases heq
  · rename_i m heq
    rw [hl] at heq
    cases heq
    rfl

theorem clearLoop_spec :
    ∀ {as : List Nat} {h : Heap T} {p : Option Nat}, Chain h p as →
      ∃ h2, clearLoop h p = some h2 ∧
        (∀ b, b ∉ as → h2.lookup b = h.lookup b) ∧
        h2.nextA = h.nextA ∧ (h.WF → h2.WF) := by
  intro as
  induction as with
  | nil =>
    intro h p hc
    have hp : p = none := chain_head_ptr hc
    exact ⟨h, by rw [hp, clearLoop_none], fun b _ => rfl, rfl, id⟩
  | cons a as ih =>
    intro h p hc
    cases hc with
    | cons hl hs =>
      rename_i n
      have hnd := chain_nodup (show Chain h (some a) (a :: as) from Seg.cons hl hs)
      have hanotin : a ∉ as := (List.nodup_cons.mp hnd).1
      have hagree : ∀ b ∈ as, (h.free a).lookup b = h.lookup b := fun b hb =>
        lookup_free_ne h a b (fun hba => hanotin (hba ▸ hb))
      have hc2 : Chain (h.free a) n.next_node as := seg_frame hs hagree
      rcases ih hc2 with ⟨h2, hrun, hlk, hnx, hwf⟩
      refine ⟨h2, ?_, ?_, ?_, ?_⟩
      · rw [clearLoop_some h a n hl]
        exact hrun
      · intro b hb
        have hbne : b ≠ a := fun hba => hb (hba ▸ List.mem_cons_self _ _)
        have hbni : b ∉ as := fun hbm => hb (List.mem_cons_of_mem _ hbm)
        rw [hlk b hbni, lookup_free_ne h a b hbne]
      · rw [hnx]
        rfl
      · intro hwf0
        exact hwf (WF.free h hwf0 a)

theorem Clear_spec {h : Heap T} {l : SingleLinkedList T} {as : List Nat}
    (hc : Chain h l.head_next as) :
    ∃ h2, Clear h l = some (h2, (⟨none, 0⟩ : SingleLinkedList T)) ∧
      (∀ b, b ∉ as → h2.lookup b = h.lookup b) ∧
      h2.nextA = h.nextA ∧ (h.WF → h2.WF) := by
  rcases clearLoop_spec hc with ⟨h2, hrun, hlk, hnx, hwf⟩
  refine ⟨h2, ?_, hlk, hnx, hwf⟩
  rw [Clear, hrun]
  rfl

theorem popFront_spec {h : Heap T} {l : SingleLinkedList T} {vs : List T}
    (hm : Models h l vs) :
    ∃ h2 l2, PopFront h l = some (h2, l2) ∧ Models h2 l2 vs.tail ∧
      l2.size_ = l.size_ - 1 ∧ (h.WF → h2.WF) ∧ h2.nextA = h.nextA := by
  rcases hm with ⟨as, hc, hsz, hv⟩
  have hhd : l.head_next = as.head? := chain_head_ptr hc
  cases as with
  | nil =>
    have hemp : l.IsEmpty = true := by
      simp [SingleLinkedList.IsEmpty, hhd]
    have hvs : vs = [] := by simpa [valsOf] using hv
    refine ⟨h, l, ?_, ⟨[], hc, hsz, ?_⟩, ?_, id, rfl⟩
    · rw [PopFront, if_pos hemp]
    · rw [hvs]
      rfl
    · simp at hsz
      rw [hsz]
  | cons a as =>
    rw [hhd] at hc
    cases hc with
    | cons hl hs =>
      rename_i n
      have hemp : l.IsEmpty = false := by
        simp [SingleLinkedList.IsEmpty, hhd]
      have hnd := chain_nodup (show Chain h (some a) (a :: as) from Seg.cons hl hs)
      have hanotin : a ∉ as := (List.nodup_cons.mp hnd).1
      have hagree : ∀ b ∈ as, (h.free a).lookup b = h.lookup b := fun b hb =>
        lookup_free_ne h a b (fun hba => hanotin (hba ▸ hb))
      refine ⟨h.free a, ⟨n.next_node, l.size_ - 1⟩, ?_, ?_, rfl,
        fun hwf => WF.free h hwf a, rfl⟩
      · rw [PopFront, if_neg (by simp [hemp]), hhd]
        simp [hl]
      · refine ⟨as, seg_frame hs hagree, ?_, ?_⟩
        · rw [hsz]
          rfl
        · rw [hv, valsOf_cons hl, valsOf_frame hagree]
          rfl

theorem eraseAfter_spec {h : Heap T} {l : SingleLinkedList T} {pos : Iter}
    {pre suf : List Nat} {a : Nat}
    (hwf : h.WF) (hps : PosSplit h l pos pre (a :: suf)) :
    ∃ na h2 l2,
      h.lookup a = some na ∧
      EraseAfter h l pos = some (h2, l2, iterOfPtr na.next_node) ∧
      Chain h2 l2.head_next (pre ++ suf) ∧
      l2.size_ = l.size_ - 1 ∧
      na.next_node = suf.head? ∧
      valsOf h2 (pre ++ suf) = valsOf h pre ++ valsOf h suf ∧
      valsOf h (pre ++ a :: suf) = valsOf h pre ++ na.value :: valsOf h suf ∧
      h2.nextA = h.nextA ∧ h2.WF := by
  obtain ⟨hchain, hseg, hcase⟩ := hps
  have hsufc : Chain h (some a) (a :: suf) :=
    posSplit_chain_suf ⟨hchain, hseg, hcase⟩
  have hhd : l.head_next = (pre ++ a :: suf).head? := chain_head_ptr hchain
  have hne : l.IsEmpty = false := by
    cases pre <;> simp [SingleLinkedList.IsEmpty, hhd]
  have hnd : (pre ++ a :: suf).Nodup := chain_nodup hchain
  have hdisj : List.Disjoint pre (a :: suf) := List.disjoint_of_nodup_append hnd
  have hsufnd : (a :: suf).Nodup := (List.nodup_append.mp hnd).2.1
  have hanotsuf : a ∉ suf := (List.nodup_cons.mp hsufnd).1
  cases hsufc with
  | cons hla hna =>
    rename_i na
    have hnah : na.next_node = suf.head? := chain_head_ptr hna
    rcases hcase with ⟨hpos, hpre⟩ | ⟨p2, pre0, hpos, hpre⟩
    · -- pos = before_begin(): the sentinel's link is rewired
      subst hpos hpre
      have hhd0 : l.head_next = some a := by simpa using hhd
      have hagree : ∀ b ∈ suf, (h.free a).lookup b = h.lookup b := fun b hb =>
        lookup_free_ne h a b (fun hba => hanotsuf (hba ▸ hb))
      refine ⟨na, h.free a, ⟨na.next_node, l.size_ - 1⟩, hla, ?_, ?_, rfl,
        hnah, ?_, ?_, rfl, WF.free h hwf a⟩
      · simp [EraseAfter, hne, readNext, writeNext, hhd0, hla]
      · simpa using seg_frame hna hagree
      · simpa using valsOf_frame hagree
      · simpa using valsOf_cons hla
    · -- pos references a real element p2
      subst hpos hpre
      rcases seg_snoc_inv hseg with ⟨n2, hseg0, hln2, hn2next⟩
      have hn2a : n2.next_node = some a := by simpa using hn2next
      have hp2pre : p2 ∈ pre0 ++ [p2] := by simp
      have hp2a : p2 ≠ a := fun he =>
        hdisj hp2pre (he ▸ List.mem_cons_self _ _)
      have hprend : (pre0 ++ [p2]).Nodup := (List.nodup_append.mp hnd).1
      have hp2pre0 : p2 ∉ pre0 := by
        have hd2 := List.disjoint_of_nodup_append hprend
        intro hmem
        exact hd2 hmem (List.mem_singleton_self _)
      set n2' : Node T := { n2 with next_node := na.next_node } with hn2'
      set h1 : Heap T := h.write p2 n2' with hh1
      set h2 : Heap T := h1.free a with hh2
      have hw1 : h1.lookup p2 = some n2' := lookup_write_self h p2 n2' n2 hln2
      have hw2 : h2.lookup p2 = some n2' := by
        rw [hh2, lookup_free_ne h1 a p2 hp2a, hw1]
      have hagree_pre0 : ∀ b ∈ pre0, h2.lookup b = h.lookup b := by
        intro b hb
        have hba : b ≠ a := fun he =>
          hdisj (List.mem_append_left _ hb) (he ▸ List.mem_cons_self _ _)
        have hbp2 : b ≠ p2 := fun he => hp2pre0 (he ▸ hb)
        rw [hh2, lookup_free_ne h1 a b hba, hh1, lookup_write_ne h p2 n2' b hbp2]
      have hagree_suf : ∀ b ∈ suf, h2.lookup b = h.lookup b := by
        intro b hb
        have hba : b ≠ a := fun he => hanotsuf (he ▸ hb)
        have hbp2 : b ≠ p2 := fun he =>
          hdisj hp2pre (List.mem_cons_of_mem _ (he ▸ hb))
        rw [hh2, lookup_free_ne h1 a b hba, hh1, lookup_write_ne h p2 n2' b hbp2]
      have hchain2 : Chain h2 l.head_next ((pre0 ++ [p2]) ++ suf) := by
        have hs1 : Seg h2 l.head_next (some p2) pre0 := seg_frame hseg0 hagree_pre0
        have hs3 : Seg h2 na.next_node none suf := seg_frame hna hagree_suf
        have hs2 : Seg h2 (some p2) none (p2 :: suf) := by
          refine Seg.cons hw2 ?_
          show Seg h2 n2'.next_node none suf
          exact hs3
        have hall := seg_append hs1 hs2
        simpa using hall
      have hvals : valsOf h2 ((pre0 ++ [p2]) ++ suf)
          = valsOf h ((pre0 ++ [p2]) ++ suf) := by
        apply valsOf_congr
        intro b hb
        by_cases hbp2 : b = p2
        · subst hbp2
          rw [hw2, hln2]
          rfl
        · rcases List.mem_append.mp hb with hb | hb
          · rcases List.mem_append.mp hb with hb | hb
            · rw [hagree_pre0 b hb]
            · exact absurd (by simpa using hb) hbp2
          · rw [hagree_suf b hb]
      refine ⟨na, h2, ⟨l.head_next, l.size_ - 1⟩, hla, ?_, hchain2, rfl, hnah,
        ?_, ?_, rfl, WF.free h1 (WF.write h hwf p2 n2' n2 hln2) a⟩
      · simp [EraseAfter, hne, readNext, writeNext, hln2, hn2a, hla, hw2,
          ← hh1, ← hh2, ← hn2']
      · rw [hvals, valsOf_append]
      · rw [valsOf_append, valsOf_cons hla]

theorem insertAfter_spec {h : Heap T} {l : SingleLinkedList T} {pos : Iter}
    {pre suf : List Nat} (v : T)
    (hwf : h.WF) (hps : PosSplit h l pos pre suf) :
    ∃ h2 l2,
      InsertAfter h l pos v = some (h2, l2, Iter.node h.nextA) ∧
      Chain h2 l2.head_next (pre ++ h.nextA :: suf) ∧
      l2.size_ = l.size_ + 1 ∧
      valsOf h2 (pre ++ h.nextA :: suf) = valsOf h pre ++ v :: valsOf h suf ∧
      h2.WF ∧ h2.nextA = h.nextA + 1 := by
  obtain ⟨hchain, hseg, hcase⟩ := hps
  have hsufc : Chain h suf.head? suf := posSplit_chain_suf ⟨hchain, hseg, hcase⟩
  have hnd : (pre ++ suf).Nodup := chain_nodup hchain
  have hdisj : List.Disjoint pre suf := List.disjoint_of_nodup_append hnd
  rcases hcase with ⟨hpos, hpre⟩ | ⟨p2, pre0, hpos, hpre⟩
  · -- pos = before_begin(): the node is linked in at the sentinel
    subst hpos hpre
    have hhd : l.head_next = suf.head? := by
      simpa using chain_head_ptr hchain
    have hagree : ∀ b ∈ suf, (h.alloc ⟨v, l.head_next⟩).1.lookup b = h.lookup b :=
      fun b hb => lookup_alloc_ne h _ b
        (Nat.ne_of_lt (seg_mem_lt hwf (hhd ▸ hsufc) hb))
    have hself : (h.alloc ⟨v, l.head_next⟩).1.lookup h.nextA
        = some ⟨v, l.head_next⟩ := lookup_alloc_self h _
    refine ⟨(h.alloc ⟨v, l.head_next⟩).1, ⟨some h.nextA, l.size_ + 1⟩, rfl,
      ?_, rfl, ?_, WF.alloc h hwf _, rfl⟩
    · refine Seg.cons hself ?_
      have hs := seg_frame hsufc hagree
      rw [← hhd] at hs
      exact hs
    · rw [List.nil_append, valsOf_cons hself, valsOf_frame hagree]
      rfl
  · -- pos references a real element p2
    subst hpos hpre
    rcases seg_snoc_inv hseg with ⟨n2, hseg0, hln2, hn2next⟩
    have hp2lt : p2 < h.nextA := WF.lookup_lt h hwf p2 n2 hln2
    have hp2pre : p2 ∈ pre0 ++ [p2] := by simp
    have hprend : (pre0 ++ [p2]).Nodup := (List.nodup_append.mp hnd).1
    have hp2pre0 : p2 ∉ pre0 := by
      have hd2 := List.disjoint_of_nodup_append hprend
      intro hmem
      exact hd2 hmem (List.mem_singleton_self _)
    set nb : Node T := ⟨v, n2.next_node⟩ with hnb
    set hA : Heap T := (h.alloc nb).1 with hhA
    set n2' : Node T := { n2 with next_node := some h.nextA } with hn2'
    set h2 : Heap T := hA.write p2 n2' with hh2
    have hA2 : hA.lookup p2 = some n2 :=
      (lookup_alloc_ne h nb p2 (Nat.ne_of_lt hp2lt)).trans hln2
    have hw2 : h2.lookup p2 = some n2' := lookup_write_self hA p2 n2' n2 hA2
    have hlb : h2.lookup h.nextA = some nb := by
      rw [hh2, lookup_write_ne hA p2 n2' h.nextA (Nat.ne_of_gt hp2lt)]
      exact lookup_alloc_self h nb
    have hagree_pre0 : ∀ c ∈ pre0, h2.lookup c = h.lookup c := by
      intro c hc
      have hclt : c < h.nextA :=
        seg_mem_lt hwf hchain (List.mem_append_left _ (List.mem_append_left _ hc))
      have hcp2 : c ≠ p2 := fun he => hp2pre0 (he ▸ hc)
      rw [hh2, lookup_write_ne hA p2 n2' c hcp2, hhA,
        lookup_alloc_ne h nb c (Nat.ne_of_lt hclt)]
    have hagree_suf : ∀ c ∈ suf, h2.lookup c = h.lookup c := by
      intro c hc
      have hclt : c < h.nextA :=
        seg_mem_lt hwf hchain (List.mem_append_right _ hc)
      have hcp2 : c ≠ p2 := fun he => hdisj hp2pre (he ▸ hc)
      rw [hh2, lookup_write_ne hA p2 n2' c hcp2, hhA,
        lookup_alloc_ne h nb c (Nat.ne_of_lt hclt)]
    have hchain2 : Chain h2 l.head_next ((pre0 ++ [p2]) ++ h.nextA :: suf) := by
      have hs1 : Seg h2 l.head_next (some p2) pre0 := seg_frame hseg0 hagree_pre0
      have hs4 : Seg h2 suf.head? none suf := seg_frame hsufc hagree_suf
      have hs3 : Seg h2 (some h.nextA) none (h.nextA :: suf) := by
        refine Seg.cons hlb ?_
        show Seg h2 nb.next_node none suf
        rw [hnb, hn2next]
        exact hs4
      have hs2 : Seg h2 (some p2) none (p2 :: h.nextA :: suf) := Seg.cons hw2 hs3
      have hall := seg_append hs1 hs2
      simpa using hall
    have hpreagree : valsOf h2 (pre0 ++ [p2]) = valsOf h (pre0 ++ [p2]) := by
      apply valsOf_congr
      intro c hc
      by_cases hcp2 : c = p2
      · subst hcp2
        rw [hw2, hln2]
        rfl
      · rcases List.mem_append.mp hc with hc | hc
        · rw [hagree_pre0 c hc]
        · exact absurd (by simpa using hc) hcp2
    refine ⟨h2, ⟨l.head_next, l.size_ + 1⟩, ?_, hchain2, rfl, ?_,
      WF.write hA (WF.alloc h hwf nb) p2 n2' n2 hA2, rfl⟩
    · simp only [InsertAfter, readNext, writeNext, alloc_addr, ← hhA, ← hnb,
        ← hn2', ← hh2, hln2, hA2, hw2, Option.map_some']
      rfl
    · rw [valsOf_append, valsOf_cons hlb, valsOf_frame hagree_suf, hpreagree]

theorem pushFront_chain {h : Heap T} {l : SingleLinkedList T} {as0 : List Nat}
    (v : T) (hwf : h.WF) (hc : Chain h l.head_next as0) :
    Chain (PushFront h l v).1 (PushFront h l v).2.head_next (h.nextA :: as0) := by
  have hagree : ∀ a ∈ as0, (PushFront h l v).1.lookup a = h.lookup a :=
    fun a ha => pushFront_lookup h l v a (seg_mem_lt hwf hc ha)
  exact Seg.cons (lookup_alloc_self h _) (seg_frame hc hagree)

theorem pushAll_chain_mem {T : Type u} :
    ∀ (vs : List T) {h : Heap T} {l : SingleLinkedList T} {as0 : List Nat},
      h.WF → Chain h l.head_next as0 →
      ∃ as1, Chain (pushAll h l vs).1 (pushAll h l vs).2.head_next as1 ∧
        ∀ a ∈ as1, a ∈ as0 ∨ h.nextA ≤ a := by
  intro vs
  induction vs with
  | nil =>
    intro h l as0 hwf hc
    exact ⟨as0, hc, fun a ha => Or.inl ha⟩
  | cons v vs ih =>
    intro h l as0 hwf hc
    have hc1 := pushFront_chain v hwf hc
    rcases ih (WF.alloc h hwf _) hc1 with ⟨as1, hc2, hmem⟩
    refine ⟨as1, hc2, ?_⟩
    intro a ha
    rcases hmem a ha with ha2 | ha2
    · rcases List.mem_cons.mp ha2 with rfl | ha3
      · exact Or.inr (Nat.le_refl _)
      · exact Or.inl ha3
    · exact Or.inr (Nat.le_of_succ_le ha2)

theorem copyCtor_spec {h : Heap T} {other : SingleLinkedList T} {vs : List T}
    (hwf : h.WF) (hm : Models h other vs) :
    ∃ h2 c, copyCtor h other = some (h2, c) ∧ h2.WF ∧ Models h2 c vs ∧
      (∀ a, a < h.nextA → h2.lookup a = h.lookup a) ∧ h.nextA ≤ h2.nextA ∧
      (∀ asc, Chain h2 c.head_next asc → ∀ b ∈ asc, h.nextA ≤ b) := by
  rcases hm with ⟨as, hc, hsz, hv⟩
  have hcol : collectVals h h.mem.length other.head_next = some vs := by
    rw [collectVals_of_chain hc h.mem.length (chain_length_le hc), hv]
  have hempty : Models h (⟨none, 0⟩ : SingleLinkedList T) [] :=
    ⟨[], Seg.refl none, rfl, rfl⟩
  have hp := pushAll_spec vs.reverse hwf hempty
  rcases pushAll_chain_mem vs.reverse hwf
    (show Chain h (⟨none, 0⟩ : SingleLinkedList T).head_next [] from Seg.refl none)
    with ⟨as1, hc1, hmem1⟩
  refine ⟨(pushAll h ⟨none, 0⟩ vs.reverse).1, (pushAll h ⟨none, 0⟩ vs.reverse).2,
    ?_, hp.1, by simpa using hp.2.1, hp.2.2.1, hp.2.2.2, ?_⟩
  · rw [copyCtor, hcol]
    simp [Clear, clearLoop_none, swapSLL]
  · intro asc hasc b hb
    rcases hmem1 b (chain_unique hasc hc1 ▸ hb) with hb2 | hb2
    · exact absurd hb2 (List.not_mem_nil b)
    · exact hb2

theorem assign_spec {h : Heap T} {lhs rhs : SingleLinkedList T}
    {vs : List T} {asl : List Nat}
    (hwf : h.WF) (hlc : Chain h lhs.head_next asl) (hr : Models h rhs vs) :
    ∃ h2 lhs2, assignOp h lhs rhs false = some (h2, lhs2) ∧ h2.WF ∧
      Models h2 lhs2 vs ∧
      (∀ b, b < h.nextA → b ∉ asl → h2.lookup b = h.lookup b) ∧
      h.nextA ≤ h2.nextA := by
  rcases copyCtor_spec hwf hr with ⟨h1, c, hrun, hwf1, hmc, hagree1, hle1, hfresh⟩
  have hlc1 : Chain h1 lhs.head_next asl :=
    seg_frame hlc (fun a ha => hagree1 a (seg_mem_lt hwf hlc ha))
  have hlc1b : Chain h1
      (⟨lhs.head_next, lhs.size_⟩ : SingleLinkedList T).head_next asl := hlc1
  rcases Clear_spec hlc1b with ⟨h2, hcl, hlk2, hnx2, hwf2⟩
  rcases hmc with ⟨asc, hcc, hcsz, hcv⟩
  have hascl : ∀ b ∈ asc, b ∉ asl := by
    intro b hb hbl
    have hge : h.nextA ≤ b := hfresh asc hcc b hb
    have hlt : b < h.nextA := seg_mem_lt hwf hlc hbl
    exact absurd hge (Nat.not_le_of_lt hlt)
  have hagree2 : ∀ b ∈ asc, h2.lookup b = h1.lookup b := fun b hb =>
    hlk2 b (hascl b hb)
  refine ⟨h2, ⟨c.head_next, c.size_⟩, ?_, hwf2 hwf1, ?_, ?_, ?_⟩
  · simp [assignOp, hrun, swapSLL, hcl]
  · exact ⟨asc, seg_frame hcc hagree2, hcsz,
      hcv.trans (valsOf_frame hagree2).symm⟩
  · intro b hblt hbnl
    rw [hlk2 b hbnl, hagree1 b hblt]
  · rw [hnx2]
    exact hle1

/-! ## Comparison operator specifications -/

section ComparisonSpecs

variable [DecidableEq T]

theorem eqRange_spec {h : Heap T} :
    ∀ {as bs : List Nat} {p q : Option Nat},
      Chain h p as → Chain h q bs → as.length = bs.length →
      ∀ fuel, as.length ≤ fuel →
        eqRange h fuel p q = some (decide (valsOf h as = valsOf h bs)) := by
  intro as
  induction as with
  | nil =>
    intro bs p q hca hcb hlen fuel _
    have hbs : bs = [] := by
      cases bs with
      | nil => rfl
      | cons b bs => simp at hlen
    subst hbs
    have hp : p = none := chain_head_ptr hca
    have hq : q = none := chain_head_ptr hcb
    subst hp hq
    cases fuel <;> simp [eqRange, valsOf]
  | cons a as ih =>
    intro bs p q hca hcb hlen fuel hfuel
    cases bs with
    | nil => simp at hlen
    | cons b bs =>
      have hp : p = some a := chain_head_ptr hca
      have hq : q = some b := chain_head_ptr hcb
      subst hp hq
      cases hca with
      | cons hla hsa =>
        cases hcb with
        | cons hlb hsb =>
          rename_i na nb
          match fuel, hfuel with
          | fuel + 1, hfuel =>
            rw [eqRange, hla, hlb]
            dsimp only
            by_cases hv : na.value = nb.value
            · rw [if_pos hv,
                ih hsa hsb (by simpa using hlen) fuel (Nat.le_of_succ_le_succ hfuel)]
              rw [valsOf_cons hla, valsOf_cons hlb]
              simp [hv]
            · rw [if_neg hv]
              rw [valsOf_cons hla, valsOf_cons hlb]
              simp [hv]

theorem listEq_spec {h : Heap T} {A B : SingleLinkedList T} {vsa vsb : List T}
    (hA : Models h A vsa) (hB : Models h B vsb) :
    listEq h A B = some (decide (vsa = vsb)) := by
  rcases hA with ⟨as, hca, hsza, hva⟩
  rcases hB with ⟨bs, hcb, hszb, hvb⟩
  have hlena : vsa.length = as.length := hva ▸ seg_length_eq_valsOf hca
  have hlenb : vsb.length = bs.length := hvb ▸ seg_length_eq_valsOf hcb
  by_cases hsz : A.GetSize = B.GetSize
  · have hlen : as.length = bs.length := by
      rw [← hsza, ← hszb]
      exact hsz
    rw [listEq, if_neg (by simpa using hsz),
      eqRange_spec hca hcb hlen h.mem.length (chain_length_le hca), hva, hvb]
  · rw [listEq, if_pos (by simpa using hsz)]
    have hne : vsa ≠ vsb := by
      intro he
      apply hsz
      show A.size_ = B.size_
      rw [hsza, hszb, ← hlena, ← hlenb, he]
    simp [hne]

end ComparisonSpecs

section OrderingSpecs

variable [LT T] [DecidableRel (fun a b : T => a < b)]

theorem lexComp_spec {h : Heap T} :
    ∀ {as bs : List Nat} {p q : Option Nat},
      Chain h p as → Chain h q bs →
      ∀ fuel, as.length ≤ fuel →
        lexComp h fuel p q = some (lexLt (valsOf h as) (valsOf h bs)) := by
  intro as
  induction as with
  | nil =>
    intro bs p q hca hcb fuel _
    have hp : p = none := chain_head_ptr hca
    subst hp
    cases bs with
    | nil =>
      have hq : q = none := chain_head_ptr hcb
      subst hq
      cases fuel <;> simp [lexComp, valsOf, lexLt]
    | cons b bs =>
      have hq : q = some b := chain_head_ptr hcb
      subst hq
      cases hcb with
      | cons hlb hsb =>
        rw [valsOf_cons hlb]
        cases fuel <;> simp [lexComp, valsOf, lexLt]
  | cons a as ih =>
    intro bs p q hca hcb fuel hfuel
    have hp : p = some a := chain_head_ptr hca
    subst hp
    cases hca with
    | cons hla hsa =>
      rename_i na
      cases bs with
      | nil =>
        have hq : q = none := chain_head_ptr hcb
        subst hq
        rw [valsOf_cons hla]
        cases fuel <;> simp [lexComp, valsOf, lexLt]
      | cons b bs =>
        have hq : q = some b := chain_head_ptr hcb
        subst hq
        cases hcb with
        | cons hlb hsb =>
          rename_i nb
          match fuel, hfuel with
          | fuel + 1, hfuel =>
            rw [lexComp, hla, hlb, valsOf_cons hla, valsOf_cons hlb]
            dsimp only
            by_cases hab : na.value < nb.value
            · rw [if_pos hab]
              simp [lexLt, hab]
            · rw [if_neg hab]
              by_cases hba : nb.value < na.value
              · rw [if_pos hba]
                simp [lexLt, hab, hba]
              · rw [if_neg hba,
                  ih hsa hsb fuel (Nat.le_of_succ_le_succ hfuel)]
                simp [lexLt, hab, hba]

theorem listLt_spec {h : Heap T} {A B : SingleLinkedList T} {vsa vsb : List T}
    (hA : Models h A vsa) (hB : Models h B vsb) :
    listLt h A B = some (lexLt vsa vsb) := by
  rcases hA with ⟨as, hca, hsza, hva⟩
  rcases hB with ⟨bs, hcb, hszb, hvb⟩
  rw [listLt, lexComp_spec hca hcb h.mem.length (chain_length_le hca), hva, hvb]

end OrderingSpecs

/-- `!(ys <lex xs)` is `xs <lex ys || xs = ys`: together with asymmetry this
says the boolean lexicographic order is a strict total order. -/
theorem not_lexLt {T : Type u} [LinearOrder T] :
    ∀ (xs ys : List T), (!lexLt ys xs) = (lexLt xs ys || decide (xs = ys)) := by
  intro xs
  induction xs with
  | nil =>
    intro ys
    cases ys <;> simp [lexLt]
  | cons x xs ih =>
    intro ys
    cases ys with
    | nil => simp [lexLt]
    | cons y ys =>
      rcases lt_trichotomy x y with hlt | heq | hgt
      · simp [lexLt, hlt, asymm hlt, ne_of_lt hlt]
      · subst heq
        simp [lexLt, lt_irrefl, ih ys]
      · simp [lexLt, hgt, asymm hgt, (ne_of_gt hgt)]

/-! ## Claim theorems -/

/-- C2: starting from an empty list (`head_ == nullptr`, `size_ == 0`),
calling `PushFront(v1), ..., PushFront(vn)` in order yields a list whose
iteration order from `begin()` (the chain from `head_.next_node`) is
`vn, ..., v1` and whose `GetSize()` equals `n`. -/
theorem C2_pushFront_sequence {T : Type u} (h : Heap T) (vs : List T)
    (hwf : h.WF) :
    Models (pushAll h ⟨none, 0⟩ vs).1 (pushAll h ⟨none, 0⟩ vs).2 vs.reverse ∧
    (pushAll h ⟨none, 0⟩ vs).2.GetSize = vs.length := by
  have hempty : Models h (⟨none, 0⟩ : SingleLinkedList T) [] :=
    ⟨[], Seg.refl none, rfl, rfl⟩
  have hp := pushAll_spec vs hwf hempty
  have hm : Models (pushAll h ⟨none, 0⟩ vs).1 (pushAll h ⟨none, 0⟩ vs).2
      vs.reverse := by simpa using hp.2.1
  refine ⟨hm, ?_⟩
  rw [SingleLinkedList.GetSize, models_length hm, List.length_reverse]

/-- C2 witness: pushing 1, 2, 3 onto an empty list in the empty heap gives
iteration order 3, 2, 1 and size 3. -/
theorem C2_pushFront_sequence_witness :
    Models (pushAll (⟨[], 0⟩ : Heap Nat) ⟨none, 0⟩ [1, 2, 3]).1
      (pushAll (⟨[], 0⟩ : Heap Nat) ⟨none, 0⟩ [1, 2, 3]).2 [3, 2, 1] ∧
    (pushAll (⟨[], 0⟩ : Heap Nat) ⟨none, 0⟩ [1, 2, 3]).2.GetSize = 3 :=
  C2_pushFront_sequence (⟨[], 0⟩ : Heap Nat) [1, 2, 3]
    (fun p hp => absurd hp (List.not_mem_nil p))

/-- C3: on an empty list, `EraseAfter(before_begin())` is a no-op: the list
is unchanged (size 0, no elements) and the returned iterator is
`Iterator{pos.node_->next_node}` = the end iterator, with no failure. -/
theorem C3_eraseAfter_empty {T : Type u} (h : Heap T) (l : SingleLinkedList T)
    (hempty : l.head_next = none) (hsz : l.size_ = 0) :
    EraseAfter h l (before_begin l) = some (h, l, endOfList l) ∧
    l.GetSize = 0 ∧ l.IsEmpty = true := by
  refine ⟨?_, hsz, by simp [SingleLinkedList.IsEmpty, hempty]⟩
  simp [EraseAfter, SingleLinkedList.IsEmpty, hempty, readNext, before_begin,
    endOfList, iterOfPtr]

/-- C3 witness: the concrete empty list in the empty heap. -/
theorem C3_eraseAfter_empty_witness :
    EraseAfter (⟨[], 0⟩ : Heap Nat) ⟨none, 0⟩
      (before_begin (⟨none, 0⟩ : SingleLinkedList Nat))
      = some (⟨[], 0⟩, ⟨none, 0⟩,
          endOfList (⟨none, 0⟩ : SingleLinkedList Nat)) ∧
    (⟨none, 0⟩ : SingleLinkedList Nat).GetSize = 0 ∧
    (⟨none, 0⟩ : SingleLinkedList Nat).IsEmpty = true :=
  C3_eraseAfter_empty (⟨[], 0⟩ : Heap Nat) ⟨none, 0⟩ rfl rfl

/-- C8: under the invariant, `IsEmpty()` holds iff `GetSize() == 0`,
equivalently iff the head link is null; and any successful `Clear()`, on
any list in any heap, leaves a list with `IsEmpty() = true`. -/
theorem C8_empty_iff_size_zero {T : Type u} {h : Heap T}
    {l : SingleLinkedList T} (hinv : Inv h l) :
    (l.IsEmpty = true ↔ l.GetSize = 0) ∧
    (l.IsEmpty = true ↔ l.head_next = none) ∧
    (∃ h2 l2, Clear h l = some (h2, l2)) ∧
    (∀ (h3 : Heap T) (l3 : SingleLinkedList T) h4 l4,
      Clear h3 l3 = some (h4, l4) → l4.IsEmpty = true) := by
  rcases hinv with ⟨as, hc, hsz⟩
  have hhd : l.head_next = as.head? := chain_head_ptr hc
  refine ⟨?_, ?_, ?_, ?_⟩
  · rw [SingleLinkedList.IsEmpty, SingleLinkedList.GetSize, hsz, hhd]
    cases as <;> simp
  · rw [SingleLinkedList.IsEmpty, hhd]
    cases as <;> simp
  · rcases Clear_spec hc with ⟨h2, hrun, _⟩
    exact ⟨h2, _, hrun⟩
  · intro h3 l3 h4 l4 hrun
    rw [Clear] at hrun
    rcases hcl : clearLoop h3 l3.head_next with _ | h5
    · rw [hcl] at hrun
      cases hrun
    · rw [hcl] at hrun
      cases hrun
      rfl

/-- C8 witness: a one-element list with the invariant. -/
theorem C8_empty_iff_size_zero_witness :
    ((⟨some 0, 1⟩ : SingleLinkedList Nat).IsEmpty = true ↔
      (⟨some 0, 1⟩ : SingleLinkedList Nat).GetSize = 0) ∧
    ((⟨some 0, 1⟩ : SingleLinkedList Nat).IsEmpty = true ↔
      (⟨some 0, 1⟩ : SingleLinkedList Nat).head_next = none) ∧
    (∃ h2 l2, Clear (⟨[(0, ⟨7, none⟩)], 1⟩ : Heap Nat) ⟨some 0, 1⟩
      = some (h2, l2)) ∧
    (∀ (h3 : Heap Nat) (l3 : SingleLinkedList Nat) h4 l4,
      Clear h3 l3 = some (h4, l4) → l4.IsEmpty = true) :=
  C8_empty_iff_size_zero
    ⟨[0], chainF_sound 1 (some 0) [0] (by decide), rfl⟩

/-- C9: `swap` (member and free form) exchanges the two lists' exact
contents: heads and sizes are exchanged, so each list afterwards
represents exactly the other's former value sequence; the heap is
untouched. -/
theorem C9_swap_exchanges {T : Type u} {h : Heap T}
    {A B : SingleLinkedList T} {vsa vsb : List T}
    (hA : Models h A vsa) (hB : Models h B vsb) :
    swapSLL A B = (B, A) ∧ swapFree A B = (B, A) ∧
    Models h (swapSLL A B).1 vsb ∧ Models h (swapSLL A B).2 vsa ∧
    (swapSLL A B).1.GetSize = B.GetSize ∧
    (swapSLL A B).2.GetSize = A.GetSize := by
  exact ⟨rfl, rfl, hB, hA, rfl, rfl⟩

/-- C9 witness: two concrete one-element lists. -/
theorem C9_swap_exchanges_witness :
    swapSLL (⟨some 0, 1⟩ : SingleLinkedList Nat) ⟨some 1, 1⟩
      = (⟨some 1, 1⟩, ⟨some 0, 1⟩) ∧
    swapFree (⟨some 0, 1⟩ : SingleLinkedList Nat) ⟨some 1, 1⟩
      = (⟨some 1, 1⟩, ⟨some 0, 1⟩) ∧
    Models (⟨[(0, ⟨7, none⟩), (1, ⟨9, none⟩)], 2⟩ : Heap Nat)
      (swapSLL (⟨some 0, 1⟩ : SingleLinkedList Nat) ⟨some 1, 1⟩).1 [9] ∧
    Models (⟨[(0, ⟨7, none⟩), (1, ⟨9, none⟩)], 2⟩ : Heap Nat)
      (swapSLL (⟨some 0, 1⟩ : SingleLinkedList Nat) ⟨some 1, 1⟩).2 [7] ∧
    (swapSLL (⟨some 0, 1⟩ : SingleLinkedList Nat) ⟨some 1, 1⟩).1.GetSize
      = (⟨some 1, 1⟩ : SingleLinkedList Nat).GetSize ∧
    (swapSLL (⟨some 0, 1⟩ : SingleLinkedList Nat) ⟨some 1, 1⟩).2.GetSize
      = (⟨some 0, 1⟩ : SingleLinkedList Nat).GetSize :=
  C9_swap_exchanges
    ⟨[0], chainF_sound 2 (some 0) [0] (by decide), rfl, by decide⟩
    ⟨[1], chainF_sound 2 (some 1) [1] (by decide), rfl, by decide⟩

/-- C10: swapping a list with itself — `l.swap(l)` or the free
`swap(l, l)`, both running the field-level `std::swap`s with aliased
operands — leaves the list unchanged, hence with the same size and the
same element sequence. -/
theorem C10_self_swap_id {T : Type u} (l : SingleLinkedList T) :
    swapSelf l = l ∧ swapFree l l = (l, l) ∧
    (∀ (h : Heap T) (vs : List T), Models h l vs → Models h (swapSelf l) vs) ∧
    (swapSelf l).GetSize = l.GetSize :=
  ⟨rfl, rfl, fun _ _ hm => hm, rfl⟩

/-- C4: for a non-empty list and a position `pos` with a real successor
(the sentinel, or a real element that is not last), `EraseAfter(pos)`
removes exactly the element after `pos` (its value is `na.value`,
sitting between the values of `pre` and `suf`), preserves the order of
all the others, decrements the recorded size by exactly one (the size was
at least 1), and returns an iterator to `pos`'s new successor. -/
theorem C4_eraseAfter_removes {T : Type u} {h : Heap T}
    {l : SingleLinkedList T} {pos : Iter} {pre suf : List Nat} {a : Nat}
    (hwf : h.WF) (hsz : l.size_ = (pre ++ a :: suf).length)
    (hps : PosSplit h l pos pre (a :: suf)) :
    ∃ na h2 l2,
      h.lookup a = some na ∧
      EraseAfter h l pos = some (h2, l2, iterOfPtr na.next_node) ∧
      Models h2 l2 (valsOf h pre ++ valsOf h suf) ∧
      valsOf h (pre ++ a :: suf) = valsOf h pre ++ na.value :: valsOf h suf ∧
      l2.GetSize = l.GetSize - 1 ∧ 1 ≤ l.GetSize ∧
      na.next_node = suf.head? := by
  rcases eraseAfter_spec hwf hps with
    ⟨na, h2, l2, hla, hrun, hchain2, hsz2, hnah, hvals2, hvals, _, _⟩
  refine ⟨na, h2, l2, hla, hrun, ⟨pre ++ suf, hchain2, ?_, hvals2.symm⟩,
    hvals, hsz2, ?_, hnah⟩
  · rw [hsz2, hsz]
    simp only [List.length_append, List.length_cons]
    omega
  · show 1 ≤ l.size_
    rw [hsz]
    simp only [List.length_append, List.length_cons]
    omega

/-- C4 witness: erasing after `before_begin()` in the two-element list
`[10, 20]` removes 10 and keeps 20. -/
theorem C4_eraseAfter_removes_witness :
    (⟨[(0, ⟨10, some 1⟩), (1, ⟨20, none⟩)], 2⟩ : Heap Nat).WF ∧
    ((⟨some 0, 2⟩ : SingleLinkedList Nat).size_ = ([] ++ 0 :: [1]).length) ∧
    PosSplit (⟨[(0, ⟨10, some 1⟩), (1, ⟨20, none⟩)], 2⟩ : Heap Nat)
      ⟨some 0, 2⟩ Iter.beforeBegin [] (0 :: [1]) ∧
    (∃ na h2 l2,
      (⟨[(0, ⟨10, some 1⟩), (1, ⟨20, none⟩)], 2⟩ : Heap Nat).lookup 0 = some na ∧
      EraseAfter (⟨[(0, ⟨10, some 1⟩), (1, ⟨20, none⟩)], 2⟩ : Heap Nat)
        ⟨some 0, 2⟩ Iter.beforeBegin = some (h2, l2, iterOfPtr na.next_node) ∧
      Models h2 l2
        (valsOf (⟨[(0, ⟨10, some 1⟩), (1, ⟨20, none⟩)], 2⟩ : Heap Nat) []
          ++ valsOf (⟨[(0, ⟨10, some 1⟩), (1, ⟨20, none⟩)], 2⟩ : Heap Nat) [1]) ∧
      valsOf (⟨[(0, ⟨10, some 1⟩), (1, ⟨20, none⟩)], 2⟩ : Heap Nat) ([] ++ 0 :: [1])
        = valsOf (⟨[(0, ⟨10, some 1⟩), (1, ⟨20, none⟩)], 2⟩ : Heap Nat) []
          ++ na.value
            :: valsOf (⟨[(0, ⟨10, some 1⟩), (1, ⟨20, none⟩)], 2⟩ : Heap Nat) [1] ∧
      l2.GetSize = (⟨some 0, 2⟩ : SingleLinkedList Nat).GetSize - 1 ∧
      1 ≤ (⟨some 0, 2⟩ : SingleLinkedList Nat).GetSize ∧
      na.next_node = [1].head?) := by
  have hwf : (⟨[(0, ⟨10, some 1⟩), (1, ⟨20, none⟩)], 2⟩ : Heap Nat).WF := by
    intro p hp
    fin_cases hp <;> decide
  have hps : PosSplit (⟨[(0, ⟨10, some 1⟩), (1, ⟨20, none⟩)], 2⟩ : Heap Nat)
      ⟨some 0, 2⟩ Iter.beforeBegin [] (0 :: [1]) :=
    ⟨chainF_sound 2 (some 0) [0, 1] (by decide), Seg.refl (some 0),
      Or.inl ⟨rfl, rfl⟩⟩
  exact ⟨hwf, rfl, hps, C4_eraseAfter_removes hwf rfl hps⟩

/-- C5: for a valid position `pos` (the sentinel or a real element),
`InsertAfter(pos, v)` links a freshly allocated node holding `v` between
`pos` and `pos`'s former successor — iteration afterwards yields the
values before `pos`, then `v`, then the rest, all other elements
unchanged — increments the element count by 1, and returns an iterator
to the new node (address `h.nextA`). -/
theorem C5_insertAfter_inserts {T : Type u} {h : Heap T}
    {l : SingleLinkedList T} {pos : Iter} {pre suf : List Nat} (v : T)
    (hwf : h.WF) (hsz : l.size_ = (pre ++ suf).length)
    (hps : PosSplit h l pos pre suf) :
    ∃ h2 l2,
      InsertAfter h l pos v = some (h2, l2, Iter.node h.nextA) ∧
      Models h2 l2 (valsOf h pre ++ v :: valsOf h suf) ∧
      l2.GetSize = l.GetSize + 1 := by
  rcases insertAfter_spec v hwf hps with
    ⟨h2, l2, hrun, hchain2, hsz2, hvals2, _, _⟩
  refine ⟨h2, l2, hrun, ⟨pre ++ h.nextA :: suf, hchain2, ?_, hvals2.symm⟩, hsz2⟩
  rw [hsz2, hsz]
  simp only [List.length_append, List.length_cons]
  omega

/-- C5 witness: inserting 5 after `before_begin()` of the one-element
list `[7]` makes 5 the first element. -/
theorem C5_insertAfter_inserts_witness :
    (⟨[(0, ⟨7, none⟩)], 1⟩ : Heap Nat).WF ∧
    ((⟨some 0, 1⟩ : SingleLinkedList Nat).size_ = ([] ++ [0]).length) ∧
    PosSplit (⟨[(0, ⟨7, none⟩)], 1⟩ : Heap Nat) ⟨some 0, 1⟩
      Iter.beforeBegin [] [0] ∧
    (∃ h2 l2,
      InsertAfter (⟨[(0, ⟨7, none⟩)], 1⟩ : Heap Nat) ⟨some 0, 1⟩
        Iter.beforeBegin 5 = some (h2, l2, Iter.node 1) ∧
      Models h2 l2
        (valsOf (⟨[(0, ⟨7, none⟩)], 1⟩ : Heap Nat) []
          ++ 5 :: valsOf (⟨[(0, ⟨7, none⟩)], 1⟩ : Heap Nat) [0]) ∧
      l2.GetSize = (⟨some 0, 1⟩ : SingleLinkedList Nat).GetSize + 1) := by
  have hwf : (⟨[(0, ⟨7, none⟩)], 1⟩ : Heap Nat).WF := by
    intro p hp
    fin_cases hp <;> decide
  have hps : PosSplit (⟨[(0, ⟨7, none⟩)], 1⟩ : Heap Nat) ⟨some 0, 1⟩
      Iter.beforeBegin [] [0] :=
    ⟨chainF_sound 1 (some 0) [0] (by decide), Seg.refl (some 0),
      Or.inl ⟨rfl, rfl⟩⟩
  exact ⟨hwf, rfl, hps, C5_insertAfter_inserts 5 hwf rfl hps⟩

/-- C7: `==` tests equal size then elementwise equality in iteration
order, `!=` is its negation, and `<`, `>`, `<=`, `>=` follow
lexicographical comparison of the value sequences (`<=`/`>=` being the
negations of the reversed strict comparison, which for a linear element
order coincide with "less-or-equal" in the lexicographic order). -/
theorem C7_comparison_operators {T : Type u} [LinearOrder T] [DecidableEq T]
    {h : Heap T} {A B : SingleLinkedList T} {vsa vsb : List T}
    (hA : Models h A vsa) (hB : Models h B vsb) :
    listEq h A B = some (decide (vsa = vsb)) ∧
    listNe h A B = some (!decide (vsa = vsb)) ∧
    listLt h A B = some (lexLt vsa vsb) ∧
    listGt h A B = some (lexLt vsb vsa) ∧
    listLe h A B = some (lexLt vsa vsb || decide (vsa = vsb)) ∧
    listGe h A B = some (lexLt vsb vsa || decide (vsb = vsa)) := by
  refine ⟨listEq_spec hA hB, ?_, listLt_spec hA hB, listLt_spec hB hA, ?_, ?_⟩
  · rw [listNe, listEq_spec hA hB, Option.map_some']
  · rw [listLe, listLt_spec hB hA, Option.map_some', not_lexLt vsa vsb]
    exact congrArg some (congrArg _ (decide_eq_decide.mpr Iff.rfl))
  · rw [listGe, listLt_spec hA hB, Option.map_some', not_lexLt vsb vsa]
    exact congrArg some (congrArg _ (decide_eq_decide.mpr Iff.rfl))

/-- C7 witness: with `[1,2] = A` and `[1,2,3] = B` in one heap,
`A == B` is false, `A < B` is true (strict prefix is less), and with
`[1,2,3] = B` against `[1,2,4] = C`, `B < C` is true. -/
theorem C7_comparison_operators_witness :
    (listEq (⟨[(0, ⟨1, some 1⟩), (1, ⟨2, none⟩),
        (2, ⟨1, some 3⟩), (3, ⟨2, some 4⟩), (4, ⟨3, none⟩),
        (5, ⟨1, some 6⟩), (6, ⟨2, some 7⟩), (7, ⟨4, none⟩)], 8⟩ : Heap Nat)
      ⟨some 0, 2⟩ ⟨some 2, 3⟩ = some (decide (([1, 2] : List Nat) = [1, 2, 3])) ∧
     listNe (⟨[(0, ⟨1, some 1⟩), (1, ⟨2, none⟩),
        (2, ⟨1, some 3⟩), (3, ⟨2, some 4⟩), (4, ⟨3, none⟩),
        (5, ⟨1, some 6⟩), (6, ⟨2, some 7⟩), (7, ⟨4, none⟩)], 8⟩ : Heap Nat)
      ⟨some 0, 2⟩ ⟨some 2, 3⟩ = some (!decide (([1, 2] : List Nat) = [1, 2, 3])) ∧
     listLt (⟨[(0, ⟨1, some 1⟩), (1, ⟨2, none⟩),
        (2, ⟨1, some 3⟩), (3, ⟨2, some 4⟩), (4, ⟨3, none⟩),
        (5, ⟨1, some 6⟩), (6, ⟨2, some 7⟩), (7, ⟨4, none⟩)], 8⟩ : Heap Nat)
      ⟨some 0, 2⟩ ⟨some 2, 3⟩ = some (lexLt [1, 2] [1, 2, 3]) ∧
     listGt (⟨[(0, ⟨1, some 1⟩), (1, ⟨2, none⟩),
        (2, ⟨1, some 3⟩), (3, ⟨2, some 4⟩), (4, ⟨3, none⟩),
        (5, ⟨1, some 6⟩), (6, ⟨2, some 7⟩), (7, ⟨4, none⟩)], 8⟩ : Heap Nat)
      ⟨some 0, 2⟩ ⟨some 2, 3⟩ = some (lexLt [1, 2, 3] [1, 2]) ∧
     listLe (⟨[(0, ⟨1, some 1⟩), (1, ⟨2, none⟩),
        (2, ⟨1, some 3⟩), (3, ⟨2, some 4⟩), (4, ⟨3, none⟩),
        (5, ⟨1, some 6⟩), (6, ⟨2, some 7⟩), (7, ⟨4, none⟩)], 8⟩ : Heap Nat)
      ⟨some 0, 2⟩ ⟨some 2, 3⟩
       = some (lexLt [1, 2] [1, 2, 3] || decide (([1, 2] : List Nat) = [1, 2, 3])) ∧
     listGe (⟨[(0, ⟨1, some 1⟩), (1, ⟨2, none⟩),
        (2, ⟨1, some 3⟩), (3, ⟨2, some 4⟩), (4, ⟨3, none⟩),
        (5, ⟨1, some 6⟩), (6, ⟨2, some 7⟩), (7, ⟨4, none⟩)], 8⟩ : Heap Nat)
      ⟨some 0, 2⟩ ⟨some 2, 3⟩
       = some (lexLt [1, 2, 3] [1, 2] || decide (([1, 2, 3] : List Nat) = [1, 2]))) ∧
    (listLt (⟨[(0, ⟨1, some 1⟩), (1, ⟨2, none⟩),
        (2, ⟨1, some 3⟩), (3, ⟨2, some 4⟩), (4, ⟨3, none⟩),
        (5, ⟨1, some 6⟩), (6, ⟨2, some 7⟩), (7, ⟨4, none⟩)], 8⟩ : Heap Nat)
      ⟨some 2, 3⟩ ⟨some 5, 3⟩ = some (lexLt [1, 2, 3] [1, 2, 4])) ∧
    lexLt ([1, 2] : List Nat) [1, 2, 3] = true ∧
    lexLt ([1, 2, 3] : List Nat) [1, 2, 4] = true ∧
    decide (([1, 2, 3] : List Nat) = [1, 2, 3]) = true ∧
    decide (([1, 2, 3] : List Nat) = [1, 2]) = false := by
  have hA : Models (⟨[(0, ⟨1, some 1⟩), (1, ⟨2, none⟩),
      (2, ⟨1, some 3⟩), (3, ⟨2, some 4⟩), (4, ⟨3, none⟩),
      (5, ⟨1, some 6⟩), (6, ⟨2, some 7⟩), (7, ⟨4, none⟩)], 8⟩ : Heap Nat)
      ⟨some 0, 2⟩ [1, 2] :=
    ⟨[0, 1], chainF_sound 2 (some 0) [0, 1] (by decide), rfl, by decide⟩
  have hB : Models (⟨[(0, ⟨1, some 1⟩), (1, ⟨2, none⟩),
      (2, ⟨1, some 3⟩), (3, ⟨2, some 4⟩), (4, ⟨3, none⟩),
      (5, ⟨1, some 6⟩), (6, ⟨2, some 7⟩), (7, ⟨4, none⟩)], 8⟩ : Heap Nat)
      ⟨some 2, 3⟩ [1, 2, 3] :=
    ⟨[2, 3, 4], chainF_sound 3 (some 2) [2, 3, 4] (by decide), rfl, by decide⟩
  have hC : Models (⟨[(0, ⟨1, some 1⟩), (1, ⟨2, none⟩),
      (2, ⟨1, some 3⟩), (3, ⟨2, some 4⟩), (4, ⟨3, none⟩),
      (5, ⟨1, some 6⟩), (6, ⟨2, some 7⟩), (7, ⟨4, none⟩)], 8⟩ : Heap Nat)
      ⟨some 5, 3⟩ [1, 2, 4] :=
    ⟨[5, 6, 7], chainF_sound 3 (some 5) [5, 6, 7] (by decide), rfl, by decide⟩
  exact ⟨C7_comparison_operators hA hB,
    (C7_comparison_operators hB hC).2.2.1, by decide, by decide, by decide,
    by decide⟩

/-- C6: copy construction and copy assignment build a list with the same
value sequence as the source, and the copy is deep: afterwards, pushing
onto the source leaves the copy's size and content unchanged and pushing
onto the copy leaves the source unchanged.  (`asL`/`asl` are the node
chains of the source `L` and of the assignment target `lhs`; distinct
lists never share nodes, whence the disjointness hypothesis.) -/
theorem C6_copies_are_deep {T : Type u} {h : Heap T}
    {L lhs : SingleLinkedList T} {vs : List T} {asL asl : List Nat}
    (hwf : h.WF) (hm : Models h L vs) (hmc : Chain h L.head_next asL)
    (hlc : Chain h lhs.head_next asl) (hdisj : List.Disjoint asl asL) :
    (∃ h1 C, copyCtor h L = some (h1, C) ∧
      Models h1 C vs ∧ Models h1 L vs ∧ C.GetSize = L.GetSize ∧
      ∀ v, Models (PushFront h1 L v).1 C vs ∧
           Models (PushFront h1 L v).1 (PushFront h1 L v).2 (v :: vs) ∧
           Models (PushFront h1 C v).1 L vs ∧
           Models (PushFront h1 C v).1 (PushFront h1 C v).2 (v :: vs)) ∧
    (∃ h1 lhs2, assignOp h lhs L false = some (h1, lhs2) ∧
      Models h1 lhs2 vs ∧ Models h1 L vs ∧ lhs2.GetSize = L.GetSize ∧
      ∀ v, Models (PushFront h1 L v).1 lhs2 vs ∧
           Models (PushFront h1 lhs2 v).1 L vs) := by
  constructor
  · rcases copyCtor_spec hwf hm with ⟨h1, C, hrun, hwf1, hmC, hagree1, hle1, _⟩
    have hmL1 : Models h1 L vs :=
      models_frame_lt hwf hm (fun a ha => hagree1 a ha)
    have hsize : C.GetSize = L.GetSize := by
      show C.size_ = L.size_
      rw [models_length hmC, models_length hmL1]
    refine ⟨h1, C, hrun, hmC, hmL1, hsize, ?_⟩
    intro v
    refine ⟨?_, (pushFront_spec hwf1 hmL1 v).2.1, ?_,
      (pushFront_spec hwf1 hmC v).2.1⟩
    · exact models_frame_lt hwf1 hmC (fun a ha => pushFront_lookup h1 L v a ha)
    · exact models_frame_lt hwf1 hmL1 (fun a ha => pushFront_lookup h1 C v a ha)
  · rcases assign_spec hwf hlc hm with ⟨h1, lhs2, hrun, hwf1, hm2, hframe, hle⟩
    have hmL1 : Models h1 L vs := by
      rcases hm with ⟨as0, hc0, hsz0, hv0⟩
      have heq : as0 = asL := chain_unique hc0 hmc
      subst heq
      have hagree : ∀ a ∈ as0, h1.lookup a = h.lookup a := fun a ha =>
        hframe a (seg_mem_lt hwf hc0 ha) (fun hmem => hdisj hmem ha)
      exact ⟨as0, seg_frame hc0 hagree, hsz0,
        hv0.trans (valsOf_frame hagree).symm⟩
    have hsize : lhs2.GetSize = L.GetSize := by
      show lhs2.size_ = L.size_
      rw [models_length hm2, models_length hmL1]
    refine ⟨h1, lhs2, hrun, hm2, hmL1, hsize, ?_⟩
    intro v
    exact ⟨models_frame_lt hwf1 hm2 (fun a ha => pushFront_lookup h1 L v a ha),
      models_frame_lt hwf1 hmL1
        (fun a ha => pushFront_lookup h1 lhs2 v a ha)⟩

/-- C6 witness: source list `[7]` (node 0) and assignment target `[5]`
(node 1) in a two-node heap. -/
theorem C6_copies_are_deep_witness :
    (⟨[(0, ⟨7, none⟩), (1, ⟨5, none⟩)], 2⟩ : Heap Nat).WF ∧
    Models (⟨[(0, ⟨7, none⟩), (1, ⟨5, none⟩)], 2⟩ : Heap Nat) ⟨some 0, 1⟩ [7] ∧
    ((∃ h1 C, copyCtor (⟨[(0, ⟨7, none⟩), (1, ⟨5, none⟩)], 2⟩ : Heap Nat)
        ⟨some 0, 1⟩ = some (h1, C) ∧
      Models h1 C [7] ∧ Models h1 (⟨some 0, 1⟩ : SingleLinkedList Nat) [7] ∧
      C.GetSize = (⟨some 0, 1⟩ : SingleLinkedList Nat).GetSize ∧
      ∀ v, Models (PushFront h1 ⟨some 0, 1⟩ v).1 C [7] ∧
           Models (PushFront h1 ⟨some 0, 1⟩ v).1
             (PushFront h1 ⟨some 0, 1⟩ v).2 (v :: [7]) ∧
           Models (PushFront h1 C v).1 (⟨some 0, 1⟩ : SingleLinkedList Nat) [7] ∧
           Models (PushFront h1 C v).1 (PushFront h1 C v).2 (v :: [7])) ∧
    (∃ h1 lhs2, assignOp (⟨[(0, ⟨7, none⟩), (1, ⟨5, none⟩)], 2⟩ : Heap Nat)
        ⟨some 1, 1⟩ ⟨some 0, 1⟩ false = some (h1, lhs2) ∧
      Models h1 lhs2 [7] ∧ Models h1 (⟨some 0, 1⟩ : SingleLinkedList Nat) [7] ∧
      lhs2.GetSize = (⟨some 0, 1⟩ : SingleLinkedList Nat).GetSize ∧
      ∀ v, Models (PushFront h1 ⟨some 0, 1⟩ v).1 lhs2 [7] ∧
           Models (PushFront h1 lhs2 v).1
             (⟨some 0, 1⟩ : SingleLinkedList Nat) [7])) := by
  have hwf : (⟨[(0, ⟨7, none⟩), (1, ⟨5, none⟩)], 2⟩ : Heap Nat).WF := by
    intro p hp
    fin_cases hp <;> decide
  have hm : Models (⟨[(0, ⟨7, none⟩), (1, ⟨5, none⟩)], 2⟩ : Heap Nat)
      ⟨some 0, 1⟩ [7] :=
    ⟨[0], chainF_sound 1 (some 0) [0] (by decide), rfl, by decide⟩
  have hmc : Chain (⟨[(0, ⟨7, none⟩), (1, ⟨5, none⟩)], 2⟩ : Heap Nat)
      (some 0) [0] := chainF_sound 1 (some 0) [0] (by decide)
  have hlc : Chain (⟨[(0, ⟨7, none⟩), (1, ⟨5, none⟩)], 2⟩ : Heap Nat)
      (some 1) [1] := chainF_sound 1 (some 1) [1] (by decide)
  have hdisj : List.Disjoint [1] [0] := by
    intro a ha hb
    simp at ha hb
    omega
  exact ⟨hwf, hm, C6_copies_are_deep hwf hm hmc hlc hdisj⟩

/-- C1: the data-structure invariant — the chain from the sentinel reaches
the terminal null pointer, visiting a duplicate-free (acyclic) sequence of
exactly `size_` nodes, and that sequence is the unique traversal — holds
for the default-constructed list and is preserved by every public
operation: `PushFront`, `PopFront`, `InsertAfter` and `EraseAfter` at
valid positions (including `EraseAfter`'s no-op on an empty list),
`Clear`, member/free `swap`, copy construction (for the copy and for the
source), and copy assignment (non-self and self). -/
theorem C1_invariant_preserved {T : Type u} :
    (∀ (h : Heap T) (l : SingleLinkedList T), Inv h l →
      ∃ as, Chain h l.head_next as ∧ as.length = l.GetSize ∧ as.Nodup ∧
        ∀ bs, Chain h l.head_next bs → bs = as) ∧
    (∀ h : Heap T, Inv h (⟨none, 0⟩ : SingleLinkedList T)) ∧
    (∀ (h : Heap T) (l : SingleLinkedList T) (v : T), h.WF → Inv h l →
      (PushFront h l v).1.WF ∧ Inv (PushFront h l v).1 (PushFront h l v).2) ∧
    (∀ (h : Heap T) (l : SingleLinkedList T), h.WF → Inv h l →
      ∃ h2 l2, PopFront h l = some (h2, l2) ∧ h2.WF ∧ Inv h2 l2) ∧
    (∀ (h : Heap T) (l : SingleLinkedList T) (pos : Iter)
      (pre suf : List Nat) (v : T), h.WF → l.size_ = (pre ++ suf).length →
      PosSplit h l pos pre suf →
      ∃ h2 l2 it, InsertAfter h l pos v = some (h2, l2, it) ∧
        h2.WF ∧ Inv h2 l2) ∧
    (∀ (h : Heap T) (l : SingleLinkedList T) (pos : Iter)
      (pre suf : List Nat) (a : Nat), h.WF →
      l.size_ = (pre ++ a :: suf).length → PosSplit h l pos pre (a :: suf) →
      ∃ h2 l2 it, EraseAfter h l pos = some (h2, l2, it) ∧
        h2.WF ∧ Inv h2 l2) ∧
    (∀ (h : Heap T) (l : SingleLinkedList T), l.head_next = none →
      EraseAfter h l Iter.beforeBegin = some (h, l, Iter.endIter)) ∧
    (∀ (h : Heap T) (l : SingleLinkedList T), h.WF → Inv h l →
      ∃ h2 l2, Clear h l = some (h2, l2) ∧ h2.WF ∧ Inv h2 l2) ∧
    (∀ (h : Heap T) (A B : SingleLinkedList T), Inv h A → Inv h B →
      Inv h (swapSLL A B).1 ∧ Inv h (swapSLL A B).2 ∧
      Inv h (swapFree A B).1 ∧ Inv h (swapFree A B).2) ∧
    (∀ (h : Heap T) (l : SingleLinkedList T), h.WF → Inv h l →
      ∃ h2 c, copyCtor h l = some (h2, c) ∧ h2.WF ∧ Inv h2 c ∧ Inv h2 l) ∧
    (∀ (h : Heap T) (lhs rhs : SingleLinkedList T), h.WF →
      Inv h lhs → Inv h rhs →
      ∃ h2 l2, assignOp h lhs rhs false = some (h2, l2) ∧ h2.WF ∧ Inv h2 l2) ∧
    (∀ (h : Heap T) (lhs rhs : SingleLinkedList T),
      assignOp h lhs rhs true = some (h, lhs)) := by
  refine ⟨?_, ?_, ?_, ?_, ?_, ?_, ?_, ?_, ?_, ?_, ?_, ?_⟩
  · intro h l hinv
    rcases hinv with ⟨as, hc, hsz⟩
    exact ⟨as, hc, hsz.symm, chain_nodup hc, fun bs hb => chain_unique hb hc⟩
  · intro h
    exact ⟨[], Seg.refl none, rfl⟩
  · intro h l v hwf hinv
    rcases inv_models hinv with ⟨vs, hm⟩
    have hp := pushFront_spec hwf hm v
    exact ⟨hp.1, models_inv hp.2.1⟩
  · intro h l hwf hinv
    rcases inv_models hinv with ⟨vs, hm⟩
    rcases popFront_spec hm with ⟨h2, l2, hrun, hm2, _, hwf2, _⟩
    exact ⟨h2, l2, hrun, hwf2 hwf, models_inv hm2⟩
  · intro h l pos pre suf v hwf hsz hps
    rcases insertAfter_spec v hwf hps with
      ⟨h2, l2, hrun, hchain2, hsz2, _, hwf2, _⟩
    refine ⟨h2, l2, Iter.node h.nextA, hrun, hwf2,
      ⟨pre ++ h.nextA :: suf, hchain2, ?_⟩⟩
    rw [hsz2, hsz]
    simp only [List.length_append, List.length_cons]
    omega
  · intro h l pos pre suf a hwf hsz hps
    rcases eraseAfter_spec hwf hps with
      ⟨na, h2, l2, _, hrun, hchain2, hsz2, _, _, _, _, hwf2⟩
    refine ⟨h2, l2, iterOfPtr na.next_node, hrun, hwf2,
      ⟨pre ++ suf, hchain2, ?_⟩⟩
    rw [hsz2, hsz]
    simp only [List.length_append, List.length_cons]
    omega
  · intro h l hempty
    simp [EraseAfter, SingleLinkedList.IsEmpty, hempty, readNext, iterOfPtr]
  · intro h l hwf hinv
    rcases hinv with ⟨as, hc, _⟩
    rcases Clear_spec hc with ⟨h2, hrun, _, _, hwf2⟩
    exact ⟨h2, ⟨none, 0⟩, hrun, hwf2 hwf, ⟨[], Seg.refl none, rfl⟩⟩
  · intro h A B hA hB
    exact ⟨hB, hA, hB, hA⟩
  · intro h l hwf hinv
    rcases inv_models hinv with ⟨vs, hm⟩
    rcases copyCtor_spec hwf hm with ⟨h2, c, hrun, hwf2, hmc, hagree, _, _⟩
    exact ⟨h2, c, hrun, hwf2, models_inv hmc,
      models_inv (models_frame_lt hwf hm hagree)⟩
  · intro h lhs rhs hwf hl hr
    rcases hl with ⟨asl, hlc, _⟩
    rcases inv_models hr with ⟨vs, hm⟩
    rcases assign_spec hwf hlc hm with ⟨h2, l2, hrun, hwf2, hm2, _, _⟩
    exact ⟨h2, l2, hrun, hwf2, models_inv hm2⟩
  · intro h lhs rhs
    rfl

end SLLVerify
